import Mathlib

/-!
Stub generation: the schema mapper of `stub/main.go`.

A shallow embedding of `toSnakeCase`, `sanitiseVariableName`,
`mapInternalStateToTmpl` and `GeneratePythonStub`, together with the library
functions they call (`strconv.Atoi`, `hash/crc32`, the `%x` verb of `fmt`),
followed by theorems about them.

Conventions of the embedding:

* Go strings are Lean `String`s; `range s` walks the runes of `s`, and
  `[]byte(s)` is the UTF-8 encoding of `s`.
* The protobuf messages are plain structures; a getter called on a `nil`
  message returns the zero value, so a missing sub-message is the structure
  with empty fields.
* A Go `map[string]*T` is an association list in insertion order.  Ranging over
  a map visits the entries in an order chosen by the runtime: that choice is the
  `RangeOrder` argument of the mapper.
* `uint32` values are natural numbers below `2 ^ 32`.
-/

namespace Stub

/-! ## Input schema (`pb` package) -/

namespace pb

/-- Modelled from the spec: the declaration of `pb.ResultType` is generated code
that is not part of this package.  The data model of the spec gives the tag as
one of UNSPECIFIED, VALUE, STRUCT, ARRAY, NONE; the constants are named as the
`switch` of `mapInternalStateToTmpl` names them. -/
inductive ResultType where
  | NOT_SPECIFIED
  | STRUCT
  | VALUE
  | ARRAY
  | NONE
deriving DecidableEq, Repr

/-- Message read through `GetName` and `GetDescription`. -/
structure MetadataField where
  Name : String
  Description : String
deriving DecidableEq, Repr

/-- Message read through `GetName`, `GetVersion`, `GetDescription` and
`GetMetadataFields`. -/
structure WindowType where
  Name : String
  Version : String
  Description : String
  MetadataFields : List MetadataField
deriving DecidableEq, Repr

/-- Message read through `GetName`, `GetVersion`, `GetWindowType` and
`GetResultType`. -/
structure Algorithm where
  Name : String
  Version : String
  WindowType : WindowType
  ResultType : ResultType
deriving DecidableEq, Repr

/-- Message read through `GetName`, `GetRuntime`, `GetConnectionStr` and
`GetSupportedAlgorithms`. -/
structure Processor where
  Name : String
  Runtime : String
  ConnectionStr : String
  SupportedAlgorithms : List Algorithm
deriving DecidableEq, Repr

/-- Message read through `GetProcessors`. -/
structure InternalState where
  Processors : List Processor
deriving DecidableEq, Repr

end pb

/-! ## Library functions -/

/-- The call `strconv.Atoi(s)`: an optional sign, then one or more ASCII decimal
digits, and a value that fits a 64-bit `int`; `none` stands for a non-nil
error. -/
def Atoi (s : String) : Option Int :=
  let body : Bool × List Char :=
    match s.data with
    | '+' :: r => (false, r)
    | '-' :: r => (true, r)
    | r => (false, r)
  if body.2.isEmpty || !(body.2.all Char.isDigit) then none
  else
    let n : Nat := body.2.foldl (fun acc c => acc * 10 + (c.toNat - 48)) 0
    let v : Int := if body.1 then -(n : Int) else (n : Int)
    if v < -(2 : Int) ^ 63 || (2 : Int) ^ 63 ≤ v then none else some v

/-- The conversion `[]byte(s)`: the UTF-8 bytes of `s`, as numbers below 256. -/
def bytes (s : String) : List Nat :=
  (s.data.map (fun c => (String.utf8EncodeChar c).map UInt8.toNat)).flatten

namespace crc32

/-- The reversed IEEE polynomial, `crc32.IEEE`. -/
def IEEE : Nat := 0xedb88320

/-- The inner loop of `simpleMakeTable`: `k` rounds of shift-and-conditionally-xor. -/
def tableRounds (poly : Nat) : Nat → Nat → Nat
  | 0, crc => crc
  | k + 1, crc =>
    if crc &&& 1 = 1 then tableRounds poly k ((crc >>> 1) ^^^ poly)
    else tableRounds poly k (crc >>> 1)

/-- Entry `i` of the table built by `simpleMakeTable(poly)`. -/
def tableEntry (poly : Nat) (i : Nat) : Nat := tableRounds poly 8 i

/-- The loop of `simpleUpdate`: one table lookup per byte,
`crc = tab[byte(crc)^v] ^ (crc >> 8)`. -/
def simpleLoop (poly : Nat) : List Nat → Nat → Nat
  | [], crc => crc
  | v :: p, crc => simpleLoop poly p (tableEntry poly ((crc % 256) ^^^ v) ^^^ (crc >>> 8))

/-- The function `update(crc, tab, p)` on a 32-bit state: complement, run the
loop, complement. -/
def update (poly : Nat) (crc : Nat) (p : List Nat) : Nat :=
  simpleLoop poly p (crc ^^^ 0xffffffff) ^^^ 0xffffffff

/-- The `digest` behind `crc32.NewIEEE()`: its running checksum. -/
structure digest where
  crc : Nat
deriving DecidableEq, Repr

/-- The constructor `crc32.NewIEEE()`. -/
def NewIEEE : digest := ⟨0⟩

/-- The method `Write(p)`. -/
def digest.Write (d : digest) (p : List Nat) : digest := ⟨update IEEE d.crc p⟩

/-- The method `Sum32()`. -/
def digest.Sum32 (d : digest) : Nat := d.crc

/-- The function `crc32.ChecksumIEEE(data)`: the CRC-32 checksum of `data`. -/
def ChecksumIEEE (data : List Nat) : Nat := update IEEE 0 data

end crc32

/-- The verb `%x` of `fmt` on an unsigned integer: lower-case hexadecimal, no
leading zeros, `"0"` for zero. -/
def fmtHex (u : Nat) : String := ⟨Nat.toDigits 16 u⟩

/-! ## Identifier helpers -/

/-- The loop of `toSnakeCase`; `i` is the byte offset of the rune `r`. -/
def toSnakeCaseLoop : List Char → Nat → List Char → List Char
  | [], _, result => result
  | r :: rest, i, result =>
    let result := if 0 < i ∧ 'A' ≤ r ∧ r ≤ 'Z' then result ++ ['_'] else result
    let result :=
      if 'A' ≤ r ∧ r ≤ 'Z' then result ++ [Char.ofNat (r.toNat + 32)]
      else result ++ [r]
    toSnakeCaseLoop rest (i + r.utf8Size) result

/-- The function `toSnakeCase`. -/
def toSnakeCase (s : String) : String := ⟨toSnakeCaseLoop s.data 0 []⟩

/-- The loop of `sanitiseVariableName`; `i` is the byte offset of the rune `r`. -/
def sanitiseLoop : List Char → Nat → List Char → List Char
  | [], _, result => result
  | r :: rest, i, result =>
    if i = 0 ∧ (Atoi (String.singleton r)).isSome then
      sanitiseLoop rest (i + r.utf8Size) (result ++ ['_'] ++ [r])
    else if r = '.' then
      sanitiseLoop rest (i + r.utf8Size) (result ++ ['_'])
    else
      sanitiseLoop rest (i + r.utf8Size) (result ++ [r])

/-- The function `sanitiseVariableName`. -/
def sanitiseVariableName (s : String) : String := ⟨sanitiseLoop s.data 0 []⟩

/-! ## Template data -/

/-- The type `ReturnType`, a string. -/
abbrev ReturnType := String

def structReturnType : ReturnType := "StructResult"
def valueReturnType : ReturnType := "ValueResult"
def noneReturnType : ReturnType := "NoneResult"
def arrayReturnType : ReturnType := "ArrayResult"

structure Metadata where
  VarName : String
  KeyName : String
  Description : String
deriving DecidableEq, Repr

structure Window where
  VarName : String
  Name : String
  Version : String
  Description : String
  MetadataVarNames : List String
deriving DecidableEq, Repr

structure Algorithm where
  Name : String
  VarName : String
  ProcessorName : String
  Version : String
  WindowVarName : String
  ReturnType : ReturnType
  Hash : String
deriving DecidableEq, Repr

structure ProcessorData where
  Name : String
  Metadata : List Metadata
  Windows : List Window
  Algorithms : List Algorithm
deriving DecidableEq, Repr

structure AllProcessors where
  Processors : List ProcessorData
deriving DecidableEq, Repr

/-! ## Go maps -/

/-- A `map[string]*V`: the entries in insertion order. -/
abbrev GoMap (V : Type) := List (String × V)

/-- The lookup `v, ok := m[k]`. -/
def GoMap.lookup {V : Type} (m : GoMap V) (k : String) : Option V :=
  match m with
  | [] => none
  | (k', v) :: rest => if k' = k then some v else GoMap.lookup rest k

/-- The assignment `m[k] = v`: replaces the value of an existing key, adds a new
entry otherwise. -/
def GoMap.set {V : Type} (m : GoMap V) (k : String) (v : V) : GoMap V :=
  match m with
  | [] => [(k, v)]
  | (k', v') :: rest => if k' = k then (k', v) :: rest else (k', v') :: GoMap.set rest k v

/-- The order in which the two `range` loops over maps visit the entries of the
processor at position `ii`: any rearrangement of the entries. -/
structure RangeOrder where
  windows : Nat → List Window → List Window
  metadata : Nat → List Metadata → List Metadata
  windows_perm : ∀ ii l, (windows ii l).Perm l
  metadata_perm : ∀ ii l, (metadata ii l).Perm l

/-- The runtime that happens to visit every map in insertion order. -/
def RangeOrder.insertion : RangeOrder where
  windows := fun _ l => l
  metadata := fun _ l => l
  windows_perm := fun _ l => List.Perm.refl l
  metadata_perm := fun _ l => List.Perm.refl l

/-- The runtime that happens to visit every map in reverse insertion order. -/
def RangeOrder.reversed : RangeOrder where
  windows := fun _ l => l.reverse
  metadata := fun _ l => l.reverse
  windows_perm := fun _ l => List.reverse_perm l
  metadata_perm := fun _ l => List.reverse_perm l

/-! ## The mapper -/

/-- The loop over `algo.GetWindowType().GetMetadataFields()`: registers each new
field name in `supportedWindowMetadataFields` and collects the variable names. -/
def metadataLoop :
    List pb.MetadataField → GoMap Metadata → List String → GoMap Metadata × List String
  | [], fields, names => (fields, names)
  | metadata :: rest, fields, names =>
    let metadataVarName := metadata.Name ++ "_stub"
    let fields :=
      if (fields.lookup metadata.Name).isNone then
        fields.set metadata.Name
          { VarName := metadataVarName
            KeyName := metadata.Name
            Description := metadata.Description }
      else fields
    metadataLoop rest fields (names ++ [metadataVarName])

/-- The variables a processor iteration carries through its algorithm loop. -/
structure LoopState where
  supportedWindowTypes : GoMap Window
  supportedWindowMetadataFields : GoMap Metadata
  supportedAlgorithms : List Algorithm
deriving DecidableEq, Repr

/-- The `switch` on `algo.GetResultType()`: the category, or `none` where the
code returns its error. -/
def classify : pb.ResultType → Option ReturnType
  | .ARRAY => some arrayReturnType
  | .STRUCT => some structReturnType
  | .VALUE => some valueReturnType
  | .NONE => some noneReturnType
  | .NOT_SPECIFIED => none

/-- The algorithm hash: six writes into a fresh IEEE digest. -/
def algorithmHash (proc : pb.Processor) (algo : pb.Algorithm) : Nat :=
  let h := crc32.NewIEEE
  let h := h.Write (bytes proc.Name)
  let h := h.Write (bytes proc.ConnectionStr)
  let h := h.Write (bytes algo.WindowType.Name)
  let h := h.Write (bytes algo.WindowType.Version)
  let h := h.Write (bytes algo.Name)
  let h := h.Write (bytes algo.Version)
  h.Sum32

/-- The literal `Algorithm{...}` stored in `supportedAlgorithms[jj]`. -/
def newAlgorithm (proc : pb.Processor) (algo : pb.Algorithm) (algoReturnType : ReturnType)
    (algorithmHash : Nat) : Algorithm :=
  { Name := algo.Name
    VarName := algo.Name ++ "_" ++ fmtHex algorithmHash
    ProcessorName := proc.Name
    Version := algo.Version
    ReturnType := algoReturnType
    WindowVarName := algo.WindowType.Name ++ "_" ++ algo.WindowType.Version ++ "_stub"
    Hash := fmtHex algorithmHash }

/-- One iteration of the loop over `proc.GetSupportedAlgorithms()`. -/
def algoStep (proc : pb.Processor) (algo : pb.Algorithm) (s : LoopState) :
    Except String LoopState :=
  let windowKey := algo.WindowType.Name ++ "_" ++ algo.WindowType.Version
  let packed := metadataLoop algo.WindowType.MetadataFields s.supportedWindowMetadataFields []
  let metadataVarNamesForWindow := packed.2
  let windowTypes :=
    if (s.supportedWindowTypes.lookup windowKey).isNone then
      s.supportedWindowTypes.set windowKey
        { VarName := windowKey ++ "_stub"
          Name := algo.WindowType.Name
          Version := algo.WindowType.Version
          Description := algo.WindowType.Description
          MetadataVarNames := metadataVarNamesForWindow }
    else s.supportedWindowTypes
  match classify algo.ResultType with
  | none =>
    .error ("result type not specified for algorithm " ++ algo.Name ++ "_" ++ algo.Version
      ++ " on processor " ++ proc.Name ++ "_" ++ proc.Runtime)
  | some algoReturnType =>
    .ok
      { supportedWindowTypes := windowTypes
        supportedWindowMetadataFields := packed.1
        supportedAlgorithms := s.supportedAlgorithms ++
          [newAlgorithm proc algo algoReturnType (algorithmHash proc algo)] }

/-- The loop over `proc.GetSupportedAlgorithms()`. -/
def algoLoop (proc : pb.Processor) : List pb.Algorithm → LoopState → Except String LoopState
  | [], s => .ok s
  | algo :: rest, s =>
    match algoStep proc algo s with
    | .error e => .error e
    | .ok s => algoLoop proc rest s

/-- One iteration of the loop over `internalState.GetProcessors()`, for the
processor at position `ii`. -/
def procStep (o : RangeOrder) (ii : Nat) (proc : pb.Processor) : Except String ProcessorData :=
  match algoLoop proc proc.SupportedAlgorithms ⟨[], [], []⟩ with
  | .error e => .error e
  | .ok s =>
    let allWindowTypes := o.windows ii (s.supportedWindowTypes.map Prod.snd)
    let allMetadataFields := o.metadata ii (s.supportedWindowMetadataFields.map Prod.snd)
    .ok
      { Name := proc.Name
        Metadata := allMetadataFields
        Windows := allWindowTypes
        Algorithms := s.supportedAlgorithms }

/-- The loop over `internalState.GetProcessors()`. -/
def procLoop (o : RangeOrder) :
    List pb.Processor → Nat → List ProcessorData → Except String (List ProcessorData)
  | [], _, processorDatas => .ok processorDatas
  | proc :: rest, ii, processorDatas =>
    match procStep o ii proc with
    | .error e => .error e
    | .ok pd => procLoop o rest (ii + 1) (processorDatas ++ [pd])

/-- The function `mapInternalStateToTmpl`: `.error` carries the message of the
returned error, `.ok` the returned `AllProcessors`. -/
def mapInternalStateToTmpl (o : RangeOrder) (internalState : pb.InternalState) :
    Except String AllProcessors :=
  match procLoop o internalState.Processors 0 [] with
  | .error e => .error e
  | .ok processorDatas => .ok { Processors := processorDatas }

/-- The algorithm entry at position `jj` of the processor at position `ii` of a
bundle, when there is one. -/
def AllProcessors.algorithmAt (b : AllProcessors) (ii jj : Nat) : Option Algorithm :=
  match b.Processors[ii]? with
  | none => none
  | some pd => pd.Algorithms[jj]?

/-- The algorithm at position `jj` of the processor at position `ii` of a
schema, with that processor, when there is one. -/
def pb.InternalState.algorithmAt (st : pb.InternalState) (ii jj : Nat) :
    Option (pb.Processor × pb.Algorithm) :=
  match st.Processors[ii]? with
  | none => none
  | some proc =>
    match proc.SupportedAlgorithms[jj]? with
    | none => none
    | some algo => some (proc, algo)

/-! ## Quantities the statements speak of -/

/-- The distinct (window name, window version) pairs among the windows of the
algorithms of a processor. -/
def distinctWindowPairs (proc : pb.Processor) : List (String × String) :=
  (proc.SupportedAlgorithms.map (fun a => (a.WindowType.Name, a.WindowType.Version))).dedup

/-- The distinct window keys `<name>_<version>` among the windows of the
algorithms of a processor. -/
def distinctWindowKeys (proc : pb.Processor) : List String :=
  (proc.SupportedAlgorithms.map
    (fun a => a.WindowType.Name ++ "_" ++ a.WindowType.Version)).dedup

/-- Whether a character may start an identifier: a letter or an underscore, and
not a decimal digit. -/
def legalStart (c : Char) : Bool := (c.isAlpha || c == '_') && !c.isDigit

/-- Whether a string holds no `.` character. -/
def noDot (s : String) : Bool := s.data.all (fun c => c != '.')

/-- Whether a string is a legal identifier: its first character is a letter or
an underscore and not a decimal digit, and it holds no `.` character. -/
def legalIdentifier (s : String) : Bool :=
  (match s.data.head? with
    | some c => legalStart c
    | none => false) && noDot s

/-- Whether a schema name can be copied into an identifier in front of an
underscore: it holds no `.`, and its first character, when it has one, may start
an identifier. -/
def cleanName (s : String) : Bool :=
  (match s.data.head? with
    | some c => legalStart c
    | none => true) && noDot s

/-- Whether the names a schema contributes to variable names are clean: the
algorithm names, the window names and the metadata-field names, and the window
versions as far as `.` goes. -/
def cleanSchema (st : pb.InternalState) : Bool :=
  st.Processors.all (fun proc =>
    proc.SupportedAlgorithms.all (fun a =>
      cleanName a.Name && cleanName a.WindowType.Name && noDot a.WindowType.Version &&
        a.WindowType.MetadataFields.all (fun f => cleanName f.Name)))

/-- Every generated variable name of a bundle: per processor, the VarName of
each Metadata entry, the VarName and the MetadataVarNames of each Window entry,
the VarName and the WindowVarName of each Algorithm entry. -/
def allVarNames (b : AllProcessors) : List String :=
  (b.Processors.map (fun pd =>
    pd.Metadata.map (fun m => m.VarName) ++
      (pd.Windows.map (fun w => w.VarName :: w.MetadataVarNames)).flatten ++
      (pd.Algorithms.map (fun a => [a.VarName, a.WindowVarName])).flatten)).flatten

/-! ## Example schemas -/

/-- A processor with two algorithms over the same window, the second one with
one more metadata field. -/
def exampleState : pb.InternalState :=
  { Processors :=
      [ { Name := "metrics"
          Runtime := "python"
          ConnectionStr := "localhost:5001"
          SupportedAlgorithms :=
            [ { Name := "Mean"
                Version := "1.0.0"
                WindowType :=
                  { Name := "tumble"
                    Version := "v1"
                    Description := "tumbling window"
                    MetadataFields := [⟨"asset_id", "asset"⟩] }
                ResultType := .VALUE },
              { Name := "Spread"
                Version := "1.0.0"
                WindowType :=
                  { Name := "tumble"
                    Version := "v1"
                    Description := "the same window, described again"
                    MetadataFields := [⟨"asset_id", "asset of the window"⟩, ⟨"fleet", "fleet"⟩] }
                ResultType := .STRUCT } ] } ] }

/-- The bundle of `exampleState` when the maps are visited in insertion order. -/
def exampleBundle : AllProcessors :=
  { Processors :=
      [ { Name := "metrics"
          Metadata :=
            [ { VarName := "asset_id_stub", KeyName := "asset_id", Description := "asset" },
              { VarName := "fleet_stub", KeyName := "fleet", Description := "fleet" } ]
          Windows :=
            [ { VarName := "tumble_v1_stub"
                Name := "tumble"
                Version := "v1"
                Description := "tumbling window"
                MetadataVarNames := ["asset_id_stub"] } ]
          Algorithms :=
            [ { Name := "Mean"
                VarName := "Mean_b69e53c0"
                ProcessorName := "metrics"
                Version := "1.0.0"
                WindowVarName := "tumble_v1_stub"
                ReturnType := "ValueResult"
                Hash := "b69e53c0" },
              { Name := "Spread"
                VarName := "Spread_10c9646f"
                ProcessorName := "metrics"
                Version := "1.0.0"
                WindowVarName := "tumble_v1_stub"
                ReturnType := "StructResult"
                Hash := "10c9646f" } ] } ] }

/-- The schema `exampleState` with the tag of its second algorithm left
unspecified. -/
def unspecifiedState : pb.InternalState :=
  { Processors :=
      [ { Name := "metrics"
          Runtime := "python"
          ConnectionStr := "localhost:5001"
          SupportedAlgorithms :=
            [ { Name := "Mean"
                Version := "1.0.0"
                WindowType := ⟨"tumble", "v1", "tumbling window", [⟨"asset_id", "asset"⟩]⟩
                ResultType := .VALUE },
              { Name := "Spread"
                Version := "1.0.0"
                WindowType := ⟨"tumble", "v1", "tumbling window", [⟨"asset_id", "asset"⟩]⟩
                ResultType := .NOT_SPECIFIED } ] } ] }

/-- Two windows with different (name, version) pairs and the same key
`tumble_5_min`. -/
def underscoreState : pb.InternalState :=
  { Processors :=
      [ { Name := "metrics"
          Runtime := "python"
          ConnectionStr := "localhost:5001"
          SupportedAlgorithms :=
            [ { Name := "Mean"
                Version := "1.0.0"
                WindowType := ⟨"tumble_5", "min", "five minutes", []⟩
                ResultType := .VALUE },
              { Name := "Spread"
                Version := "1.0.0"
                WindowType := ⟨"tumble", "5_min", "five minutes again", []⟩
                ResultType := .STRUCT } ] } ] }

/-- The schema `exampleState` behind another processor, with the runtime, the
window description, the metadata fields and the tags changed, and the two
algorithms in the other order. -/
def variantState : pb.InternalState :=
  { Processors :=
      [ { Name := "alarms"
          Runtime := "go"
          ConnectionStr := "localhost:5002"
          SupportedAlgorithms := [] },
        { Name := "metrics"
          Runtime := "rust"
          ConnectionStr := "localhost:5001"
          SupportedAlgorithms :=
            [ { Name := "Spread"
                Version := "1.0.0"
                WindowType := ⟨"tumble", "v1", "reworded", [⟨"site", "site of the asset"⟩]⟩
                ResultType := .NONE },
              { Name := "Mean"
                Version := "1.0.0"
                WindowType := ⟨"tumble", "v1", "reworded", []⟩
                ResultType := .ARRAY } ] } ] }

/-- The bundle of `variantState` when the maps are visited in reverse insertion
order. -/
def variantBundle : AllProcessors :=
  { Processors :=
      [ { Name := "alarms", Metadata := [], Windows := [], Algorithms := [] },
        { Name := "metrics"
          Metadata := [⟨"site_stub", "site", "site of the asset"⟩]
          Windows := [⟨"tumble_v1_stub", "tumble", "v1", "reworded", ["site_stub"]⟩]
          Algorithms :=
            [ { Name := "Spread"
                VarName := "Spread_10c9646f"
                ProcessorName := "metrics"
                Version := "1.0.0"
                WindowVarName := "tumble_v1_stub"
                ReturnType := "NoneResult"
                Hash := "10c9646f" },
              { Name := "Mean"
                VarName := "Mean_b69e53c0"
                ProcessorName := "metrics"
                Version := "1.0.0"
                WindowVarName := "tumble_v1_stub"
                ReturnType := "ArrayResult"
                Hash := "b69e53c0" } ] } ] }

/-- Two algorithms whose checksums are `0xb69e53c0` and `0x04f66190`. -/
def shortHashState : pb.InternalState :=
  { Processors :=
      [ { Name := "metrics"
          Runtime := "python"
          ConnectionStr := "localhost:5001"
          SupportedAlgorithms :=
            [ { Name := "Mean"
                Version := "1.0.0"
                WindowType := ⟨"tumble", "v1", "tumbling window", []⟩
                ResultType := .VALUE },
              { Name := "Sum"
                Version := "1.0.0"
                WindowType := ⟨"tumble", "v1", "tumbling window", []⟩
                ResultType := .VALUE } ] } ] }

/-- A schema with a dotted window version, a dotted metadata-field name and an
algorithm name that starts with a digit. -/
def dottedState : pb.InternalState :=
  { Processors :=
      [ { Name := "metrics"
          Runtime := "python"
          ConnectionStr := "localhost:5001"
          SupportedAlgorithms :=
            [ { Name := "3sigma"
                Version := "1.0.0"
                WindowType := ⟨"tumble", "1.0.0", "tumbling window", [⟨"asset.id", "asset"⟩]⟩
                ResultType := .VALUE } ] } ] }

/-- What the description of `sanitiseVariableName` gives for `s`: every `.`
replaced by an underscore, behind one more underscore when the first character
of `s` is a decimal digit. -/
def sanitiseSpec (s : String) : String :=
  ⟨(match s.data with
    | c :: _ => if c.isDigit then ['_'] else []
    | [] => []) ++ s.data.map (fun c => if c = '.' then '_' else c)⟩

/-- What `toSnakeCase` does to `s`, in words: every letter `A`..`Z`
(`Char.isUpper`) is replaced by its lower-case form `a`..`z` (`Char.toLower`),
behind an underscore when it is not the first character; every other character,
a capital outside `A`..`Z` included, stays as it is. -/
def snakeSpec (s : String) : String :=
  match s.data with
  | [] => ""
  | c :: rest =>
    ⟨(if c.isUpper then c.toLower else c) ::
      (rest.map (fun r => if r.isUpper then ['_', r.toLower] else [r])).flatten⟩

/-- The upper-case letters of the Basic Latin and Latin-1 blocks of Unicode:
`A`..`Z`, and `À`..`Þ` without the multiplication sign `×`.  Unicode has more
upper-case letters; these are the ones the examples use. -/
def upperCaseLetter (c : Char) : Bool :=
  (65 ≤ c.toNat && c.toNat ≤ 90) ||
    (0xC0 ≤ c.toNat && c.toNat ≤ 0xDE && c.toNat != 0xD7)

/-- The lower-case form of a letter of `upperCaseLetter`, 32 code points up; any
other character is its own form. -/
def lowerCaseForm (c : Char) : Char :=
  if upperCaseLetter c then Char.ofNat (c.toNat + 32) else c

/-- The description of `toSnakeCase` read for all of `upperCaseLetter`: every
upper-case letter replaced by its lower-case form, behind an underscore when it
is not the first character, every other character as it is. -/
def snakeClaim (s : String) : String :=
  match s.data with
  | [] => ""
  | c :: rest =>
    ⟨lowerCaseForm c ::
      (rest.map (fun r => if upperCaseLetter r then ['_', lowerCaseForm r] else [r])).flatten⟩

/-- The message of the error returned for an algorithm whose tag is
`NOT_SPECIFIED`. -/
def unspecifiedError (proc : pb.Processor) (algo : pb.Algorithm) : String :=
  "result type not specified for algorithm " ++ algo.Name ++ "_" ++ algo.Version
    ++ " on processor " ++ proc.Name ++ "_" ++ proc.Runtime

/-- Two `ProcessorData` that differ at most in the order of their Windows and of
their Metadata lists. -/
def ProcessorData.sameUpToOrder (pd pd2 : ProcessorData) : Prop :=
  pd.Name = pd2.Name ∧ pd.Algorithms = pd2.Algorithms ∧ pd.Windows.Perm pd2.Windows ∧
    pd.Metadata.Perm pd2.Metadata

/-- A processor whose two algorithms agree on every field. -/
def duplicateState : pb.InternalState :=
  { Processors :=
      [ { Name := "metrics"
          Runtime := "python"
          ConnectionStr := "localhost:5001"
          SupportedAlgorithms :=
            [ { Name := "Mean"
                Version := "1.0.0"
                WindowType := ⟨"tumble", "v1", "tumbling window", [⟨"asset_id", "asset"⟩]⟩
                ResultType := .VALUE },
              { Name := "Mean"
                Version := "1.0.0"
                WindowType := ⟨"tumble", "v1", "tumbling window", [⟨"asset_id", "asset"⟩]⟩
                ResultType := .VALUE } ] } ] }

/-- The bundle of `duplicateState`. -/
def duplicateBundle : AllProcessors :=
  { Processors :=
      [ { Name := "metrics"
          Metadata := [⟨"asset_id_stub", "asset_id", "asset"⟩]
          Windows := [⟨"tumble_v1_stub", "tumble", "v1", "tumbling window", ["asset_id_stub"]⟩]
          Algorithms :=
            [ ⟨"Mean", "Mean_b69e53c0", "metrics", "1.0.0", "tumble_v1_stub", "ValueResult",
                "b69e53c0"⟩,
              ⟨"Mean", "Mean_b69e53c0", "metrics", "1.0.0", "tumble_v1_stub", "ValueResult",
                "b69e53c0"⟩ ] } ] }

/-- A schema with three unspecified tags: the second and third algorithm of the
first processor and the algorithm of the second processor. -/
def threeUnspecifiedState : pb.InternalState :=
  { Processors :=
      [ { Name := "metrics"
          Runtime := "python"
          ConnectionStr := "localhost:5001"
          SupportedAlgorithms :=
            [ { Name := "Mean"
                Version := "1.0.0"
                WindowType := ⟨"tumble", "v1", "tumbling window", []⟩
                ResultType := .VALUE },
              { Name := "Spread"
                Version := "1.0.0"
                WindowType := ⟨"tumble", "v1", "tumbling window", []⟩
                ResultType := .NOT_SPECIFIED },
              { Name := "Sum"
                Version := "2.0.0"
                WindowType := ⟨"tumble", "v1", "tumbling window", []⟩
                ResultType := .NOT_SPECIFIED } ] },
        { Name := "alarms"
          Runtime := "go"
          ConnectionStr := "localhost:5002"
          SupportedAlgorithms :=
            [ { Name := "Trip"
                Version := "0.1.0"
                WindowType := ⟨"slide", "v2", "sliding window", []⟩
                ResultType := .NOT_SPECIFIED } ] } ] }

/-- Two processors whose names and connection strings differ and concatenate to
the same text, `abc`, with the same algorithm each. -/
def collisionState : pb.InternalState :=
  { Processors :=
      [ { Name := "ab"
          Runtime := "python"
          ConnectionStr := "c"
          SupportedAlgorithms :=
            [ { Name := "Mean"
                Version := "1.0.0"
                WindowType := ⟨"tumble", "v1", "tumbling window", []⟩
                ResultType := .VALUE } ] },
        { Name := "a"
          Runtime := "python"
          ConnectionStr := "bc"
          SupportedAlgorithms :=
            [ { Name := "Mean"
                Version := "1.0.0"
                WindowType := ⟨"tumble", "v1", "tumbling window", []⟩
                ResultType := .VALUE } ] } ] }

/-! ## The generator and its surroundings -/

/-- An error of the `os` package: its text, and whether `os.IsExist` holds of
it. -/
structure OsError where
  text : String
  isExist : Bool
deriving DecidableEq, Repr

/-- What the surroundings answer to the calls of `GeneratePythonStub`: the error
of `os.Create`, of `os.Mkdir` and of `pythonTemplate.Execute`, `none` for
`nil`. -/
structure World where
  Create : String → Option OsError
  Mkdir : String → Nat → Option OsError
  Execute : AllProcessors → Option String

/-- The surroundings in which every call succeeds. -/
def World.obliging : World where
  Create := fun _ => none
  Mkdir := fun _ _ => none
  Execute := fun _ => none

/-- An action of `GeneratePythonStub` on its surroundings. -/
inductive Action where
  | Create (name : String)
  | Mkdir (name : String) (perm : Nat)
  | Execute (data : AllProcessors)
  | Close
  | println (text : String)
deriving DecidableEq, Repr

/-- How a call of `GeneratePythonStub` ends: it returns an error, `none` for
`nil`, or it panics. -/
inductive Outcome where
  | returned (err : Option String)
  | panicked (err : String)
deriving DecidableEq, Repr

/-- The function `GeneratePythonStub`: the actions it performs, in order, and how
it ends.  The deferred `outFile.Close()` runs when the function is left after
the `defer` statement. -/
def GeneratePythonStub (o : RangeOrder) (w : World) (internalState : pb.InternalState)
    (outDir : String) : List Action × Outcome :=
  match mapInternalStateToTmpl o internalState with
  | .error err => ([], .returned (some ("could not parse internal state: " ++ err)))
  | .ok processorTmpl =>
    let created := [Action.Create "orca_stub.pyi"]
    match (w.Create "orca_stub.pyi").filter (fun err => !err.isExist) with
    | some err => (created, .returned (some err.text))
    | none =>
      let made := created ++ [Action.Mkdir outDir 0o750]
      match (w.Mkdir outDir 0o750).filter (fun err => !err.isExist) with
      | some err => (made ++ [Action.Close], .returned (some err.text))
      | none =>
        let executed := made ++ [Action.Execute processorTmpl]
        match w.Execute processorTmpl with
        | some err => (executed ++ [Action.Close], .panicked err)
        | none =>
          (executed ++ [Action.println "Generated system_state.py successfully!", Action.Close],
            .returned none)

/-! ## Closed forms used in the proofs -/

/-- Adding an entry under a key the map does not hold yet; a map that holds the
key is left as it is. -/
def GoMap.addNew {V : Type} (m : GoMap V) (kv : String × V) : GoMap V :=
  if kv.1 ∈ m.map Prod.fst then m else m ++ [kv]

/-- The map entry a metadata field is registered under. -/
def fieldEntry (metadata : pb.MetadataField) : String × Metadata :=
  (metadata.Name,
    { VarName := metadata.Name ++ "_stub"
      KeyName := metadata.Name
      Description := metadata.Description })

/-- The map entry the window of an algorithm is registered under. -/
def windowEntry (algo : pb.Algorithm) : String × Window :=
  (algo.WindowType.Name ++ "_" ++ algo.WindowType.Version,
    { VarName := algo.WindowType.Name ++ "_" ++ algo.WindowType.Version ++ "_stub"
      Name := algo.WindowType.Name
      Version := algo.WindowType.Version
      Description := algo.WindowType.Description
      MetadataVarNames := algo.WindowType.MetadataFields.map (fun f => f.Name ++ "_stub") })

/-- The entry built for an algorithm whose tag is classified. -/
def algoEntry (proc : pb.Processor) (algo : pb.Algorithm) : Algorithm :=
  newAlgorithm proc algo ((classify algo.ResultType).getD "") (algorithmHash proc algo)

/-- The window map after the algorithms `algos`, starting from `m`. -/
def windowsAfter (algos : List pb.Algorithm) (m : GoMap Window) : GoMap Window :=
  (algos.map windowEntry).foldl GoMap.addNew m

/-- All metadata fields of the windows of `algos`, in visiting order. -/
def allFields (algos : List pb.Algorithm) : List pb.MetadataField :=
  (algos.map (fun a => a.WindowType.MetadataFields)).flatten

/-- The metadata map after the algorithms `algos`, starting from `m`. -/
def metadataAfter (algos : List pb.Algorithm) (m : GoMap Metadata) : GoMap Metadata :=
  ((allFields algos).map fieldEntry).foldl GoMap.addNew m

/-- The data of a processor with its maps listed in insertion order. -/
def canonicalData (proc : pb.Processor) : ProcessorData :=
  { Name := proc.Name
    Metadata := (metadataAfter proc.SupportedAlgorithms []).map Prod.snd
    Windows := (windowsAfter proc.SupportedAlgorithms []).map Prod.snd
    Algorithms := proc.SupportedAlgorithms.map (algoEntry proc) }

/-! ## Go maps: lookup, assignment, insertion of new keys -/

theorem GoMap.lookup_isNone_iff {V : Type} (m : GoMap V) (k : String) :
    (m.lookup k).isNone = true ↔ k ∉ m.map Prod.fst := by
  induction m with
  | nil => simp [GoMap.lookup]
  | cons e rest ih =>
    obtain ⟨k', v⟩ := e
    by_cases h : k' = k
    · simp [GoMap.lookup, h]
    · have h' : ¬ k = k' := fun e => h e.symm
      simp [GoMap.lookup, h, h', ih]

theorem GoMap.set_of_not_mem {V : Type} (m : GoMap V) (k : String) (v : V)
    (h : k ∉ m.map Prod.fst) : m.set k v = m ++ [(k, v)] := by
  induction m with
  | nil => simp [GoMap.set]
  | cons e rest ih =>
    obtain ⟨k', v'⟩ := e
    simp only [List.map_cons, List.mem_cons, not_or] at h
    have h' : ¬ k' = k := fun e => h.1 e.symm
    simp [GoMap.set, h', ih h.2]

theorem GoMap.guarded_set_eq {V : Type} (m : GoMap V) (k : String) (v : V) :
    (if (m.lookup k).isNone then m.set k v else m) = m.addNew (k, v) := by
  unfold GoMap.addNew
  by_cases h : k ∈ m.map Prod.fst
  · have : ¬ (m.lookup k).isNone = true := fun hn => (GoMap.lookup_isNone_iff m k).1 hn h
    rw [if_neg this, if_pos h]
  · have : (m.lookup k).isNone = true := (GoMap.lookup_isNone_iff m k).2 h
    rw [if_pos this, if_neg h, GoMap.set_of_not_mem m k v h]

theorem GoMap.addAll_keys_nodup {V : Type} (kvs : List (String × V)) :
    ∀ m : GoMap V, (m.map Prod.fst).Nodup → ((kvs.foldl GoMap.addNew m).map Prod.fst).Nodup := by
  induction kvs with
  | nil => intro m h; simpa using h
  | cons kv rest ih =>
    intro m h
    rw [List.foldl_cons]
    apply ih
    unfold GoMap.addNew
    split
    · exact h
    · rename_i hk
      rw [List.map_append, List.nodup_append]
      refine ⟨h, by simp, ?_⟩
      intro a ha hb
      simp only [List.map_cons, List.map_nil, List.mem_singleton] at hb
      exact hk (hb ▸ ha)

theorem GoMap.mem_addAll_keys {V : Type} (kvs : List (String × V)) (k : String) :
    ∀ m : GoMap V, k ∈ (kvs.foldl GoMap.addNew m).map Prod.fst ↔
      k ∈ m.map Prod.fst ∨ k ∈ kvs.map Prod.fst := by
  induction kvs with
  | nil => intro m; simp
  | cons kv rest ih =>
    intro m
    rw [List.foldl_cons, ih]
    unfold GoMap.addNew
    split
    · rename_i hk
      simp only [List.map_cons, List.mem_cons]
      constructor
      · rintro (h | h)
        · exact Or.inl h
        · exact Or.inr (Or.inr h)
      · rintro (h | h | h)
        · exact Or.inl h
        · exact Or.inl (h ▸ hk)
        · exact Or.inr h
    · simp only [List.map_append, List.map_cons, List.map_nil, List.mem_append,
        List.mem_singleton, List.mem_cons]
      tauto

theorem GoMap.mem_addAll {V : Type} (kvs : List (String × V)) (e : String × V) :
    ∀ m : GoMap V, e ∈ kvs.foldl GoMap.addNew m → e ∈ m ∨ e ∈ kvs := by
  induction kvs with
  | nil => intro m h; exact Or.inl (by simpa using h)
  | cons kv rest ih =>
    intro m h
    rw [List.foldl_cons] at h
    rcases ih _ h with h1 | h1
    · unfold GoMap.addNew at h1
      split at h1
      · exact Or.inl h1
      · rcases List.mem_append.1 h1 with h2 | h2
        · exact Or.inl h2
        · exact Or.inr (by simp only [List.mem_singleton] at h2; simp [h2])
    · exact Or.inr (List.mem_cons_of_mem _ h1)

/-! ## The loops in closed form -/

theorem metadataLoop_eq (fs : List pb.MetadataField) :
    ∀ (m : GoMap Metadata) (names : List String),
      metadataLoop fs m names =
        ((fs.map fieldEntry).foldl GoMap.addNew m,
          names ++ fs.map (fun f => f.Name ++ "_stub")) := by
  induction fs with
  | nil => intro m names; simp [metadataLoop]
  | cons f rest ih =>
    intro m names
    simp only [metadataLoop, List.map_cons, List.foldl_cons]
    rw [GoMap.guarded_set_eq, ih]
    simp [fieldEntry]

theorem classify_eq_none_iff (t : pb.ResultType) :
    classify t = none ↔ t = pb.ResultType.NOT_SPECIFIED := by
  cases t <;> simp [classify]

theorem algoStep_eq (proc : pb.Processor) (algo : pb.Algorithm) (s : LoopState) :
    algoStep proc algo s =
      match classify algo.ResultType with
      | none =>
        .error ("result type not specified for algorithm " ++ algo.Name ++ "_" ++ algo.Version
          ++ " on processor " ++ proc.Name ++ "_" ++ proc.Runtime)
      | some _ =>
        .ok
          { supportedWindowTypes := windowsAfter [algo] s.supportedWindowTypes
            supportedWindowMetadataFields := metadataAfter [algo] s.supportedWindowMetadataFields
            supportedAlgorithms := s.supportedAlgorithms ++ [algoEntry proc algo] } := by
  unfold algoStep
  simp only [GoMap.guarded_set_eq, metadataLoop_eq]
  cases h : classify algo.ResultType with
  | none => rfl
  | some rt =>
    simp [windowsAfter, metadataAfter, allFields, algoEntry, windowEntry, h]

theorem windowsAfter_cons (algo : pb.Algorithm) (rest : List pb.Algorithm) (m : GoMap Window) :
    windowsAfter (algo :: rest) m = windowsAfter rest (windowsAfter [algo] m) := by
  simp [windowsAfter]

theorem metadataAfter_cons (algo : pb.Algorithm) (rest : List pb.Algorithm)
    (m : GoMap Metadata) :
    metadataAfter (algo :: rest) m = metadataAfter rest (metadataAfter [algo] m) := by
  simp [metadataAfter, allFields, List.foldl_append]

/-- A successful algorithm loop ends in the closed-form state, and then no tag
was `NOT_SPECIFIED`. -/
theorem algoLoop_ok (proc : pb.Processor) (algos : List pb.Algorithm) :
    ∀ s s2 : LoopState, algoLoop proc algos s = .ok s2 →
      s2 =
        { supportedWindowTypes := windowsAfter algos s.supportedWindowTypes
          supportedWindowMetadataFields := metadataAfter algos s.supportedWindowMetadataFields
          supportedAlgorithms := s.supportedAlgorithms ++ algos.map (algoEntry proc) } ∧
      ∀ a ∈ algos, a.ResultType ≠ pb.ResultType.NOT_SPECIFIED := by
  induction algos with
  | nil =>
    intro s s2 h
    simp only [algoLoop, Except.ok.injEq] at h
    subst h
    simp [windowsAfter, metadataAfter, allFields]
  | cons algo rest ih =>
    intro s s2 h
    rw [algoLoop, algoStep_eq] at h
    cases hc : classify algo.ResultType with
    | none => rw [hc] at h; simp at h
    | some rt =>
      rw [hc] at h
      simp only at h
      obtain ⟨h1, h2⟩ := ih _ _ h
      refine ⟨?_, ?_⟩
      · subst h1
        simp only [windowsAfter_cons algo rest, metadataAfter_cons algo rest, List.map_cons,
          List.append_assoc, List.singleton_append]
      · intro a ha
        rcases List.mem_cons.1 ha with rfl | ha
        · intro hn
          rw [(classify_eq_none_iff _).2 hn] at hc
          exact absurd hc (by simp)
        · exact h2 a ha

/-- The algorithm loop succeeds when no tag is `NOT_SPECIFIED`. -/
theorem algoLoop_isOk (proc : pb.Processor) (algos : List pb.Algorithm) :
    ∀ s : LoopState, (∀ a ∈ algos, a.ResultType ≠ pb.ResultType.NOT_SPECIFIED) →
      ∃ s2, algoLoop proc algos s = .ok s2 := by
  induction algos with
  | nil => intro s _; exact ⟨s, rfl⟩
  | cons algo rest ih =>
    intro s h
    rw [algoLoop, algoStep_eq]
    cases hc : classify algo.ResultType with
    | none =>
      exact absurd ((classify_eq_none_iff _).1 hc) (h algo (List.mem_cons_self _ _))
    | some rt =>
      simp only
      exact ih _ (fun a ha => h a (List.mem_cons_of_mem _ ha))

/-- The data of a processor whose algorithms are all classified. -/
theorem procStep_ok (o : RangeOrder) (ii : Nat) (proc : pb.Processor) (pd : ProcessorData)
    (h : procStep o ii proc = .ok pd) :
    pd.Name = proc.Name ∧
    pd.Algorithms = proc.SupportedAlgorithms.map (algoEntry proc) ∧
    pd.Windows.Perm ((windowsAfter proc.SupportedAlgorithms []).map Prod.snd) ∧
    pd.Metadata.Perm ((metadataAfter proc.SupportedAlgorithms []).map Prod.snd) ∧
    ∀ a ∈ proc.SupportedAlgorithms, a.ResultType ≠ pb.ResultType.NOT_SPECIFIED := by
  unfold procStep at h
  cases hl : algoLoop proc proc.SupportedAlgorithms ⟨[], [], []⟩ with
  | error e => rw [hl] at h; simp at h
  | ok s =>
    rw [hl] at h
    simp only [Except.ok.injEq] at h
    obtain ⟨h1, h2⟩ := algoLoop_ok proc _ _ _ hl
    subst h
    subst h1
    exact ⟨rfl, by simp, o.windows_perm _ _, o.metadata_perm _ _, h2⟩

theorem procStep_isOk (o : RangeOrder) (ii : Nat) (proc : pb.Processor) :
    (∃ pd, procStep o ii proc = .ok pd) ↔
      ∀ a ∈ proc.SupportedAlgorithms, a.ResultType ≠ pb.ResultType.NOT_SPECIFIED := by
  constructor
  · rintro ⟨pd, h⟩
    exact (procStep_ok o ii proc pd h).2.2.2.2
  · intro h
    obtain ⟨s, hs⟩ := algoLoop_isOk proc proc.SupportedAlgorithms ⟨[], [], []⟩ h
    unfold procStep
    rw [hs]
    exact ⟨_, rfl⟩

/-- A successful processor loop appends one `ProcessorData` per processor, in
order, each the result of its own iteration. -/
theorem procLoop_ok (o : RangeOrder) (procs : List pb.Processor) :
    ∀ (ii : Nat) (acc out : List ProcessorData), procLoop o procs ii acc = .ok out →
      ∃ pds : List ProcessorData, out = acc ++ pds ∧ pds.length = procs.length ∧
        ∀ k proc, procs[k]? = some proc →
          ∃ pd, pds[k]? = some pd ∧ procStep o (ii + k) proc = .ok pd := by
  induction procs with
  | nil =>
    intro ii acc out h
    simp only [procLoop, Except.ok.injEq] at h
    exact ⟨[], by simp [h], rfl, by simp⟩
  | cons proc rest ih =>
    intro ii acc out h
    rw [procLoop] at h
    cases hp : procStep o ii proc with
    | error e => rw [hp] at h; simp at h
    | ok pd =>
      rw [hp] at h
      simp only at h
      obtain ⟨pds, h1, h2, h3⟩ := ih _ _ _ h
      refine ⟨pd :: pds, by simp [h1], by simp [h2], ?_⟩
      intro k q hk
      cases k with
      | zero =>
        simp only [List.getElem?_cons_zero, Option.some.injEq] at hk
        subst hk
        exact ⟨pd, by simp, by simpa using hp⟩
      | succ k =>
        simp only [List.getElem?_cons_succ] at hk
        obtain ⟨pd2, hpd, hstep⟩ := h3 k q hk
        refine ⟨pd2, by simpa using hpd, ?_⟩
        rw [← hstep]
        congr 1
        omega

theorem procLoop_isOk (o : RangeOrder) (procs : List pb.Processor) :
    ∀ (ii : Nat) (acc : List ProcessorData),
      (∃ out, procLoop o procs ii acc = .ok out) ↔
        ∀ proc ∈ procs, ∀ a ∈ proc.SupportedAlgorithms,
          a.ResultType ≠ pb.ResultType.NOT_SPECIFIED := by
  induction procs with
  | nil => intro ii acc; simp [procLoop]
  | cons proc rest ih =>
    intro ii acc
    rw [procLoop]
    cases hp : procStep o ii proc with
    | error e =>
      simp only [List.mem_cons, forall_eq_or_imp]
      constructor
      · rintro ⟨out, h⟩
        simp at h
      · rintro ⟨h, _⟩
        obtain ⟨pd, hpd⟩ := (procStep_isOk o ii proc).2 h
        rw [hp] at hpd
        simp at hpd
    | ok pd =>
      simp only [List.mem_cons, forall_eq_or_imp]
      rw [ih]
      constructor
      · intro h
        exact ⟨(procStep_isOk o ii proc).1 ⟨pd, hp⟩, h⟩
      · intro h
        exact h.2

/-- The shape of a successful mapping: one `ProcessorData` per processor, each
the result of the iteration for the processor at the same position. -/
theorem map_ok (o : RangeOrder) (st : pb.InternalState) (b : AllProcessors)
    (h : mapInternalStateToTmpl o st = .ok b) :
    b.Processors.length = st.Processors.length ∧
      ∀ ii proc, st.Processors[ii]? = some proc →
        ∃ pd, b.Processors[ii]? = some pd ∧ procStep o ii proc = .ok pd := by
  unfold mapInternalStateToTmpl at h
  cases hl : procLoop o st.Processors 0 [] with
  | error e => rw [hl] at h; simp at h
  | ok out =>
    rw [hl] at h
    simp only [Except.ok.injEq] at h
    subst h
    obtain ⟨pds, h1, h2, h3⟩ := procLoop_ok o _ _ _ _ hl
    simp only [List.nil_append] at h1
    subst h1
    refine ⟨h2, ?_⟩
    intro ii proc hp
    obtain ⟨pd, hpd, hstep⟩ := h3 ii proc hp
    exact ⟨pd, hpd, by simpa using hstep⟩

/-- Read from the output side: a `ProcessorData` of a successful mapping is the
result of the iteration for the processor at its position. -/
theorem map_ok_at (o : RangeOrder) (st : pb.InternalState) (b : AllProcessors)
    (h : mapInternalStateToTmpl o st = .ok b) (ii : Nat) (pd : ProcessorData)
    (hpd : b.Processors[ii]? = some pd) :
    ∃ proc, st.Processors[ii]? = some proc ∧ procStep o ii proc = .ok pd := by
  obtain ⟨hlen, hall⟩ := map_ok o st b h
  have hlt : ii < st.Processors.length := by
    rw [← hlen]
    exact (List.getElem?_eq_some_iff.1 hpd).1
  obtain ⟨pd2, h1, h2⟩ := hall ii st.Processors[ii] (List.getElem?_eq_getElem hlt)
  rw [hpd] at h1
  simp only [Option.some.injEq] at h1
  subst h1
  exact ⟨_, List.getElem?_eq_getElem hlt, h2⟩

/-- An algorithm entry of a successful mapping is the entry built for the input
algorithm at the same position, whose tag is classified. -/
theorem map_ok_algorithmAt (o : RangeOrder) (st : pb.InternalState) (b : AllProcessors)
    (h : mapInternalStateToTmpl o st = .ok b) (ii jj : Nat) (e : Algorithm)
    (he : b.algorithmAt ii jj = some e) :
    ∃ proc algo, st.algorithmAt ii jj = some (proc, algo) ∧ e = algoEntry proc algo ∧
      algo.ResultType ≠ pb.ResultType.NOT_SPECIFIED := by
  unfold AllProcessors.algorithmAt at he
  cases hpd : b.Processors[ii]? with
  | none => rw [hpd] at he; simp at he
  | some pd =>
    rw [hpd] at he
    simp only at he
    obtain ⟨proc, hproc, hstep⟩ := map_ok_at o st b h ii pd hpd
    obtain ⟨-, halg, -, -, htag⟩ := procStep_ok o ii proc pd hstep
    rw [halg, List.getElem?_map] at he
    cases ha : proc.SupportedAlgorithms[jj]? with
    | none => rw [ha] at he; simp at he
    | some algo =>
      rw [ha] at he
      simp only [Option.map_some', Option.some.injEq] at he
      refine ⟨proc, algo, ?_, he.symm, htag algo (List.getElem?_mem ha)⟩
      simp [pb.InternalState.algorithmAt, hproc, ha]

set_option maxRecDepth 100000 in
theorem exampleState_ok :
    mapInternalStateToTmpl RangeOrder.insertion exampleState = .ok exampleBundle := by
  rfl

/-! ## Counting the entries of a map -/

theorem GoMap.addAll_length {V : Type} (kvs : List (String × V)) :
    (kvs.foldl GoMap.addNew []).length = ((kvs.map Prod.fst).dedup).length := by
  have hn : ((kvs.foldl GoMap.addNew ([] : GoMap V)).map Prod.fst).Nodup :=
    GoMap.addAll_keys_nodup kvs [] (by simp)
  have hp : ((kvs.foldl GoMap.addNew ([] : GoMap V)).map Prod.fst).Perm
      ((kvs.map Prod.fst).dedup) := by
    rw [List.perm_ext_iff_of_nodup hn (List.nodup_dedup _)]
    intro k
    rw [GoMap.mem_addAll_keys, List.mem_dedup]
    simp
  simpa using hp.length_eq

theorem append_sep_injective (c : Char) (a : List Char) :
    ∀ (a2 b b2 : List Char), c ∉ a → c ∉ a2 → a ++ c :: b = a2 ++ c :: b2 →
      a = a2 ∧ b = b2 := by
  induction a with
  | nil =>
    intro a2 b b2 _ h2 h
    cases a2 with
    | nil => simpa using h
    | cons y a2 =>
      simp only [List.nil_append, List.cons_append, List.cons.injEq] at h
      exact absurd (h.1 ▸ List.mem_cons_self _ _) h2
  | cons x a ih =>
    intro a2 b b2 h1 h2 h
    cases a2 with
    | nil =>
      simp only [List.nil_append, List.cons_append, List.cons.injEq] at h
      exact absurd (h.1 ▸ List.mem_cons_self _ _) h1
    | cons y a2 =>
      simp only [List.cons_append, List.cons.injEq] at h
      obtain ⟨h3, h4⟩ := ih a2 b b2 (fun hc => h1 (List.mem_cons_of_mem _ hc))
        (fun hc => h2 (List.mem_cons_of_mem _ hc)) h.2
      exact ⟨by rw [h.1, h3], h4⟩

/-- The window key determines the pair when the names hold no underscore. -/
theorem windowKey_injective (n v n2 v2 : String) (h1 : '_' ∉ n.data) (h2 : '_' ∉ n2.data)
    (h : n ++ "_" ++ v = n2 ++ "_" ++ v2) : n = n2 ∧ v = v2 := by
  have hd : n.data ++ '_' :: v.data = n2.data ++ '_' :: v2.data := by
    have := congrArg String.data h
    simpa [String.data_append] using this
  obtain ⟨h3, h4⟩ := append_sep_injective '_' _ _ _ _ h1 h2 hd
  exact ⟨String.ext h3, String.ext h4⟩

theorem dedup_map_length_of_injOn {α β : Type} [DecidableEq α] [DecidableEq β] (f : α → β)
    (l : List α) (h : ∀ x ∈ l, ∀ y ∈ l, f x = f y → x = y) :
    ((l.map f).dedup).length = (l.dedup).length := by
  have hn : ((l.dedup).map f).Nodup :=
    List.Nodup.map_on
      (fun x hx y hy hxy => h x (List.mem_dedup.1 hx) y (List.mem_dedup.1 hy) hxy)
      (List.nodup_dedup l)
  have hp : ((l.map f).dedup).Perm ((l.dedup).map f) := by
    rw [List.perm_ext_iff_of_nodup (List.nodup_dedup _) hn]
    intro b
    simp [List.mem_dedup]
  simpa using hp.length_eq

/-- The windows of a processor's data, counted. -/
theorem procStep_windows_length (o : RangeOrder) (ii : Nat) (proc : pb.Processor)
    (pd : ProcessorData) (h : procStep o ii proc = .ok pd) :
    pd.Windows.length = (distinctWindowKeys proc).length := by
  obtain ⟨-, -, hw, -, -⟩ := procStep_ok o ii proc pd h
  rw [hw.length_eq, List.length_map, windowsAfter, GoMap.addAll_length]
  simp [distinctWindowKeys, windowEntry, Function.comp_def]

/-! ## Classification -/

/-- C1: the mapping returns an error exactly for the schemas in which some
algorithm of some processor has the tag NOT_SPECIFIED, and it returns a bundle
when every tag is one of ARRAY, STRUCT, VALUE, NONE. -/
theorem error_iff_not_specified (o : RangeOrder) (st : pb.InternalState) :
    ((∃ e, mapInternalStateToTmpl o st = .error e) ↔
      ∃ proc ∈ st.Processors, ∃ a ∈ proc.SupportedAlgorithms,
        a.ResultType = pb.ResultType.NOT_SPECIFIED) ∧
    ((∀ proc ∈ st.Processors, ∀ a ∈ proc.SupportedAlgorithms,
        a.ResultType = pb.ResultType.ARRAY ∨ a.ResultType = pb.ResultType.STRUCT ∨
          a.ResultType = pb.ResultType.VALUE ∨ a.ResultType = pb.ResultType.NONE) →
      ∃ b, mapInternalStateToTmpl o st = .ok b) := by
  have key := procLoop_isOk o st.Processors 0 []
  have hok : (∃ b, mapInternalStateToTmpl o st = .ok b) ↔
      ∀ proc ∈ st.Processors, ∀ a ∈ proc.SupportedAlgorithms,
        a.ResultType ≠ pb.ResultType.NOT_SPECIFIED := by
    rw [← key]
    unfold mapInternalStateToTmpl
    cases procLoop o st.Processors 0 [] with
    | error e => simp
    | ok out => simp
  constructor
  · constructor
    · rintro ⟨e, he⟩
      by_contra hne
      push_neg at hne
      obtain ⟨b, hb⟩ := hok.2 hne
      rw [he] at hb
      simp at hb
    · rintro ⟨proc, hp, a, ha, htag⟩
      cases hm : mapInternalStateToTmpl o st with
      | error e => exact ⟨e, rfl⟩
      | ok b => exact absurd htag (hok.1 ⟨b, hm⟩ proc hp a ha)
  · intro h
    apply hok.2
    intro proc hp a ha hn
    rcases h proc hp a ha with h1 | h1 | h1 | h1 <;> rw [hn] at h1 <;> simp at h1

theorem error_iff_not_specified_witness :
    (∃ e, mapInternalStateToTmpl RangeOrder.insertion unspecifiedState = .error e) ∧
      ∃ b, mapInternalStateToTmpl RangeOrder.insertion exampleState = .ok b :=
  ⟨(error_iff_not_specified RangeOrder.insertion unspecifiedState).1.2 (by decide),
    (error_iff_not_specified RangeOrder.insertion exampleState).2 (by decide)⟩

/-- C2: in a successful mapping every algorithm entry has one of the four
categories as its ReturnType, the one matching the tag of the input algorithm at
the same position: STRUCT gives StructResult, VALUE gives ValueResult, NONE gives
NoneResult, ARRAY gives ArrayResult. -/
theorem returnType_matches_tag (o : RangeOrder) (st : pb.InternalState) (b : AllProcessors)
    (h : mapInternalStateToTmpl o st = .ok b) (ii jj : Nat) (e : Algorithm)
    (he : b.algorithmAt ii jj = some e) :
    ∃ proc algo, st.algorithmAt ii jj = some (proc, algo) ∧
      (e.ReturnType = "StructResult" ∨ e.ReturnType = "ValueResult" ∨
        e.ReturnType = "NoneResult" ∨ e.ReturnType = "ArrayResult") ∧
      (algo.ResultType = pb.ResultType.STRUCT → e.ReturnType = "StructResult") ∧
      (algo.ResultType = pb.ResultType.VALUE → e.ReturnType = "ValueResult") ∧
      (algo.ResultType = pb.ResultType.NONE → e.ReturnType = "NoneResult") ∧
      (algo.ResultType = pb.ResultType.ARRAY → e.ReturnType = "ArrayResult") := by
  obtain ⟨proc, algo, hat, hent, htag⟩ := map_ok_algorithmAt o st b h ii jj e he
  refine ⟨proc, algo, hat, ?_⟩
  subst hent
  cases hr : algo.ResultType <;>
    simp_all [algoEntry, newAlgorithm, classify, structReturnType, valueReturnType,
      noneReturnType, arrayReturnType]

theorem returnType_matches_tag_witness :
    ∃ proc algo, exampleState.algorithmAt 0 1 = some (proc, algo) ∧
      ("StructResult" = "StructResult" ∨ "StructResult" = "ValueResult" ∨
        "StructResult" = "NoneResult" ∨ "StructResult" = "ArrayResult") ∧
      (algo.ResultType = pb.ResultType.STRUCT → "StructResult" = "StructResult") ∧
      (algo.ResultType = pb.ResultType.VALUE → "StructResult" = "ValueResult") ∧
      (algo.ResultType = pb.ResultType.NONE → "StructResult" = "NoneResult") ∧
      (algo.ResultType = pb.ResultType.ARRAY → "StructResult" = "ArrayResult") :=
  returnType_matches_tag RangeOrder.insertion exampleState exampleBundle exampleState_ok 0 1
    { Name := "Spread"
      VarName := "Spread_10c9646f"
      ProcessorName := "metrics"
      Version := "1.0.0"
      WindowVarName := "tumble_v1_stub"
      ReturnType := "StructResult"
      Hash := "10c9646f" } rfl

/-! ## Deduplication of windows -/

/-- C3, as stated, fails: the windows (tumble_5, min) and (tumble, 5_min) are two
distinct pairs, and the processor gets one Window entry for them. -/
theorem window_count_counterexample :
    ∃ b, mapInternalStateToTmpl RangeOrder.insertion underscoreState = .ok b ∧
      b.Processors.map (fun pd => pd.Windows.length) = [1] ∧
      underscoreState.Processors.map (fun proc => (distinctWindowPairs proc).length) = [2] :=
  ⟨_, rfl, by decide, by decide⟩

/-- C3, amended: in a successful mapping the number of Window entries of a
processor is the number of distinct window keys `<name>_<version>` among the
windows of its algorithms, and it is the number of distinct (name, version)
pairs when no window name of the processor holds an underscore. -/
theorem window_count_eq_distinct_keys (o : RangeOrder) (st : pb.InternalState)
    (b : AllProcessors) (h : mapInternalStateToTmpl o st = .ok b) (ii : Nat)
    (proc : pb.Processor) (hp : st.Processors[ii]? = some proc) :
    ∃ pd, b.Processors[ii]? = some pd ∧
      pd.Windows.length = (distinctWindowKeys proc).length ∧
      ((∀ a ∈ proc.SupportedAlgorithms, '_' ∉ a.WindowType.Name.data) →
        pd.Windows.length = (distinctWindowPairs proc).length) := by
  obtain ⟨pd, hpd, hstep⟩ := (map_ok o st b h).2 ii proc hp
  have hlen := procStep_windows_length o ii proc pd hstep
  refine ⟨pd, hpd, hlen, ?_⟩
  intro hus
  rw [hlen, distinctWindowKeys, distinctWindowPairs]
  have := dedup_map_length_of_injOn (fun q : String × String => q.1 ++ "_" ++ q.2)
    (proc.SupportedAlgorithms.map (fun a => (a.WindowType.Name, a.WindowType.Version)))
    (by
      intro x hx y hy hxy
      simp only [List.mem_map] at hx hy
      obtain ⟨a, ha, rfl⟩ := hx
      obtain ⟨a2, ha2, rfl⟩ := hy
      obtain ⟨h1, h2⟩ := windowKey_injective _ _ _ _ (hus a ha) (hus a2 ha2) hxy
      exact Prod.ext h1 h2)
  rw [← this, List.map_map]
  rfl

theorem window_count_eq_distinct_keys_witness :
    ∃ pd, exampleBundle.Processors[0]? = some pd ∧
      pd.Windows.length = (distinctWindowKeys exampleState.Processors[0]).length ∧
      pd.Windows.length = (distinctWindowPairs exampleState.Processors[0]).length :=
  match window_count_eq_distinct_keys RangeOrder.insertion exampleState exampleBundle
    exampleState_ok 0 exampleState.Processors[0] rfl with
  | ⟨pd, h1, h2, h3⟩ => ⟨pd, h1, h2, h3 (by decide)⟩

/-! ## Deduplication of metadata fields -/

theorem metadataAfter_keys (algos : List pb.Algorithm) (k : String) :
    k ∈ (metadataAfter algos []).map Prod.fst ↔
      ∃ a ∈ algos, ∃ f ∈ a.WindowType.MetadataFields, f.Name = k := by
  rw [metadataAfter, GoMap.mem_addAll_keys]
  simp only [List.map_nil, List.not_mem_nil, false_or, List.map_map, List.mem_map,
    Function.comp_apply, allFields, List.mem_flatten]
  constructor
  · rintro ⟨f, ⟨l, ⟨a, ha, rfl⟩, hf⟩, rfl⟩
    exact ⟨a, ha, f, hf, rfl⟩
  · rintro ⟨a, ha, f, hf, rfl⟩
    exact ⟨f, ⟨_, ⟨a, ha, rfl⟩, hf⟩, rfl⟩

theorem metadataAfter_entry (algos : List pb.Algorithm) (e : String × Metadata)
    (he : e ∈ metadataAfter algos []) :
    e.2.KeyName = e.1 ∧ e.2.VarName = e.1 ++ "_stub" := by
  rcases GoMap.mem_addAll _ e [] he with h | h
  · simp at h
  · obtain ⟨f, -, rfl⟩ := List.mem_map.1 h
    exact ⟨rfl, rfl⟩

theorem metadataAfter_keyNames (algos : List pb.Algorithm) :
    ((metadataAfter algos []).map Prod.snd).map (fun m => m.KeyName) =
      (metadataAfter algos []).map Prod.fst := by
  rw [List.map_map]
  apply List.map_congr_left
  intro e he
  exact (metadataAfter_entry algos e he).1

/-- C4: in a successful mapping the Metadata list of a processor has exactly one
entry per distinct metadata-field name of the windows of its algorithms and no
other entry: the KeyNames are pairwise distinct, they are the field names, and
every VarName is the KeyName followed by `_stub`. -/
theorem metadata_one_per_field_name (o : RangeOrder) (st : pb.InternalState)
    (b : AllProcessors) (h : mapInternalStateToTmpl o st = .ok b) (ii : Nat)
    (proc : pb.Processor) (hp : st.Processors[ii]? = some proc) :
    ∃ pd, b.Processors[ii]? = some pd ∧
      (pd.Metadata.map (fun m => m.KeyName)).Nodup ∧
      (∀ k, k ∈ pd.Metadata.map (fun m => m.KeyName) ↔
        ∃ a ∈ proc.SupportedAlgorithms, ∃ f ∈ a.WindowType.MetadataFields, f.Name = k) ∧
      ∀ m ∈ pd.Metadata, m.VarName = m.KeyName ++ "_stub" := by
  obtain ⟨pd, hpd, hstep⟩ := (map_ok o st b h).2 ii proc hp
  obtain ⟨-, -, -, hm, -⟩ := procStep_ok o ii proc pd hstep
  have hk : (pd.Metadata.map (fun m => m.KeyName)).Perm
      ((metadataAfter proc.SupportedAlgorithms []).map Prod.fst) := by
    rw [← metadataAfter_keyNames]
    exact hm.map _
  refine ⟨pd, hpd, ?_, ?_, ?_⟩
  · rw [hk.nodup_iff]
    exact GoMap.addAll_keys_nodup _ [] (by simp)
  · intro k
    rw [hk.mem_iff, metadataAfter_keys]
  · intro m hmem
    obtain ⟨e, he, rfl⟩ := List.mem_map.1 (hm.mem_iff.1 hmem)
    obtain ⟨h1, h2⟩ := metadataAfter_entry _ e he
    rw [h1, h2]

theorem metadata_one_per_field_name_witness :
    ∃ pd, exampleBundle.Processors[0]? = some pd ∧
      (pd.Metadata.map (fun m => m.KeyName)).Nodup ∧
      (∀ k, k ∈ pd.Metadata.map (fun m => m.KeyName) ↔
        ∃ a ∈ exampleState.Processors[0].SupportedAlgorithms,
          ∃ f ∈ a.WindowType.MetadataFields, f.Name = k) ∧
      ∀ m ∈ pd.Metadata, m.VarName = m.KeyName ++ "_stub" :=
  metadata_one_per_field_name RangeOrder.insertion exampleState exampleBundle
    exampleState_ok 0 exampleState.Processors[0] rfl

/-! ## The window reference of an algorithm -/

theorem algorithmAt_eq_some (b : AllProcessors) (ii jj : Nat) (e : Algorithm) :
    b.algorithmAt ii jj = some e ↔
      ∃ pd, b.Processors[ii]? = some pd ∧ pd.Algorithms[jj]? = some e := by
  unfold AllProcessors.algorithmAt
  cases b.Processors[ii]? with
  | none => simp
  | some pd => simp

theorem windowsAfter_entry (algos : List pb.Algorithm) (e : String × Window)
    (he : e ∈ windowsAfter algos []) : ∃ a ∈ algos, e = windowEntry a := by
  rcases GoMap.mem_addAll _ e [] he with h | h
  · simp at h
  · obtain ⟨a, ha, rfl⟩ := List.mem_map.1 h
    exact ⟨a, ha, rfl⟩

theorem windowsAfter_keys (algos : List pb.Algorithm) (k : String) :
    k ∈ (windowsAfter algos []).map Prod.fst ↔
      ∃ a ∈ algos, a.WindowType.Name ++ "_" ++ a.WindowType.Version = k := by
  rw [windowsAfter, GoMap.mem_addAll_keys]
  simp [windowEntry]

/-- C5: in a successful mapping the WindowVarName of every algorithm entry is the
VarName of a Window entry of the same ProcessorData. -/
theorem windowVarName_resolves (o : RangeOrder) (st : pb.InternalState) (b : AllProcessors)
    (h : mapInternalStateToTmpl o st = .ok b) (ii jj : Nat) (e : Algorithm)
    (he : b.algorithmAt ii jj = some e) :
    ∃ pd, b.Processors[ii]? = some pd ∧ e ∈ pd.Algorithms ∧
      ∃ w ∈ pd.Windows, w.VarName = e.WindowVarName := by
  obtain ⟨pd, hpd, hje⟩ := (algorithmAt_eq_some b ii jj e).1 he
  refine ⟨pd, hpd, List.getElem?_mem hje, ?_⟩
  obtain ⟨proc, -, hstep⟩ := map_ok_at o st b h ii pd hpd
  obtain ⟨-, halg, hw, -, -⟩ := procStep_ok o ii proc pd hstep
  rw [halg] at hje
  obtain ⟨algo, halgo, rfl⟩ := List.mem_map.1 (List.getElem?_mem hje)
  have hkey : algo.WindowType.Name ++ "_" ++ algo.WindowType.Version ∈
      (windowsAfter proc.SupportedAlgorithms []).map Prod.fst :=
    (windowsAfter_keys _ _).2 ⟨algo, halgo, rfl⟩
  obtain ⟨kw, hkw, hfst⟩ := List.mem_map.1 hkey
  obtain ⟨a2, -, ha2⟩ := windowsAfter_entry _ kw hkw
  refine ⟨kw.2, hw.mem_iff.2 (List.mem_map.2 ⟨kw, hkw, rfl⟩), ?_⟩
  have h1 : kw.2.VarName = kw.1 ++ "_stub" := by rw [ha2]; rfl
  rw [h1, hfst]
  rfl

theorem windowVarName_resolves_witness :
    ∃ pd, exampleBundle.Processors[0]? = some pd ∧
      (⟨"Spread", "Spread_10c9646f", "metrics", "1.0.0", "tumble_v1_stub", "StructResult",
        "10c9646f"⟩ : Algorithm) ∈ pd.Algorithms ∧
      ∃ w ∈ pd.Windows, w.VarName = "tumble_v1_stub" :=
  windowVarName_resolves RangeOrder.insertion exampleState exampleBundle exampleState_ok 0 1
    ⟨"Spread", "Spread_10c9646f", "metrics", "1.0.0", "tumble_v1_stub", "StructResult",
      "10c9646f"⟩ rfl

/-! ## The algorithm hash -/

set_option maxRecDepth 100000 in
theorem variantState_ok :
    mapInternalStateToTmpl RangeOrder.reversed variantState = .ok variantBundle := by
  rfl

/-- The check value of CRC-32: the checksum of the ASCII digits `123456789`. -/
theorem checksumIEEE_check_value : crc32.ChecksumIEEE (bytes "123456789") = 0xcbf43926 := by
  decide

theorem bytes_append (a b : String) : bytes (a ++ b) = bytes a ++ bytes b := by
  simp [bytes, String.data_append]

theorem xor_xor_cancel (x m : Nat) : (x ^^^ m) ^^^ m = x := by
  rw [Nat.xor_assoc, Nat.xor_self, Nat.xor_zero]

theorem crc32.simpleLoop_append (poly : Nat) (p : List Nat) :
    ∀ (q : List Nat) (crc : Nat),
      crc32.simpleLoop poly (p ++ q) crc = crc32.simpleLoop poly q (crc32.simpleLoop poly p crc) := by
  induction p with
  | nil => intro q crc; rfl
  | cons v p ih =>
    intro q crc
    rw [List.cons_append]
    simp only [crc32.simpleLoop]
    exact ih _ _

/-- Writing `p` and then `q` into a digest is writing `p ++ q`. -/
theorem crc32.update_append (poly crc : Nat) (p q : List Nat) :
    crc32.update poly (crc32.update poly crc p) q = crc32.update poly crc (p ++ q) := by
  simp only [crc32.update, xor_xor_cancel, crc32.simpleLoop_append]

/-- The six writes compute the checksum of the concatenation of the six
strings. -/
theorem algorithmHash_eq (proc : pb.Processor) (algo : pb.Algorithm) :
    algorithmHash proc algo =
      crc32.ChecksumIEEE (bytes (proc.Name ++ proc.ConnectionStr ++ algo.WindowType.Name ++
        algo.WindowType.Version ++ algo.Name ++ algo.Version)) := by
  simp only [algorithmHash, crc32.NewIEEE, crc32.digest.Write, crc32.digest.Sum32,
    crc32.ChecksumIEEE, crc32.update_append, bytes_append, List.append_assoc]

/-- Read from the input side: the algorithm at a position of the schema has its
entry at the same position of the bundle. -/
theorem map_ok_entry (o : RangeOrder) (st : pb.InternalState) (b : AllProcessors)
    (h : mapInternalStateToTmpl o st = .ok b) (ii jj : Nat) (proc : pb.Processor)
    (algo : pb.Algorithm) (hs : st.algorithmAt ii jj = some (proc, algo)) :
    b.algorithmAt ii jj = some (algoEntry proc algo) := by
  unfold pb.InternalState.algorithmAt at hs
  cases hp : st.Processors[ii]? with
  | none => rw [hp] at hs; simp at hs
  | some proc2 =>
    rw [hp] at hs
    simp only at hs
    cases ha : proc2.SupportedAlgorithms[jj]? with
    | none => rw [ha] at hs; simp at hs
    | some algo2 =>
      rw [ha] at hs
      simp only [Option.some.injEq, Prod.mk.injEq] at hs
      obtain ⟨rfl, rfl⟩ := hs
      obtain ⟨pd, hpd, hstep⟩ := (map_ok o st b h).2 ii proc2 hp
      obtain ⟨-, halg, -, -, -⟩ := procStep_ok o ii proc2 pd hstep
      rw [algorithmAt_eq_some]
      exact ⟨pd, hpd, by rw [halg, List.getElem?_map, ha]; rfl⟩

/-- C6: in a successful mapping the Hash of an algorithm entry is the lower-case
hexadecimal rendering of the CRC-32 (IEEE) checksum of the bytes of processor
name, connection string, window name, window version, algorithm name and
algorithm version, concatenated in this order without separators, and its
VarName is the algorithm name, an underscore and that Hash. -/
theorem hash_is_crc32_of_concatenation (o : RangeOrder) (st : pb.InternalState)
    (b : AllProcessors) (h : mapInternalStateToTmpl o st = .ok b) (ii jj : Nat) (e : Algorithm)
    (he : b.algorithmAt ii jj = some e) :
    ∃ proc algo, st.algorithmAt ii jj = some (proc, algo) ∧
      e.Hash = fmtHex (crc32.ChecksumIEEE (bytes (proc.Name ++ proc.ConnectionStr ++
        algo.WindowType.Name ++ algo.WindowType.Version ++ algo.Name ++ algo.Version))) ∧
      e.VarName = algo.Name ++ "_" ++ e.Hash := by
  obtain ⟨proc, algo, hat, hent, -⟩ := map_ok_algorithmAt o st b h ii jj e he
  refine ⟨proc, algo, hat, ?_, ?_⟩
  · rw [hent, ← algorithmHash_eq]
    rfl
  · rw [hent]
    rfl

theorem hash_is_crc32_of_concatenation_witness :
    ∃ proc algo, exampleState.algorithmAt 0 0 = some (proc, algo) ∧
      "b69e53c0" = fmtHex (crc32.ChecksumIEEE (bytes (proc.Name ++ proc.ConnectionStr ++
        algo.WindowType.Name ++ algo.WindowType.Version ++ algo.Name ++ algo.Version))) ∧
      "Mean_b69e53c0" = algo.Name ++ "_" ++ "b69e53c0" :=
  hash_is_crc32_of_concatenation RangeOrder.insertion exampleState exampleBundle
    exampleState_ok 0 0
    ⟨"Mean", "Mean_b69e53c0", "metrics", "1.0.0", "tumble_v1_stub", "ValueResult", "b69e53c0"⟩
    rfl

/-- C8: two algorithms of two successfully mapped schemas that agree on processor
name, connection string, window name, window version, algorithm name and
algorithm version get entries with the same Hash. -/
theorem hash_stable (o o2 : RangeOrder) (st st2 : pb.InternalState) (b b2 : AllProcessors)
    (h : mapInternalStateToTmpl o st = .ok b) (h2 : mapInternalStateToTmpl o2 st2 = .ok b2)
    (ii jj ii2 jj2 : Nat) (proc proc2 : pb.Processor) (algo algo2 : pb.Algorithm)
    (hs : st.algorithmAt ii jj = some (proc, algo))
    (hs2 : st2.algorithmAt ii2 jj2 = some (proc2, algo2))
    (hpn : proc.Name = proc2.Name) (hpc : proc.ConnectionStr = proc2.ConnectionStr)
    (hwn : algo.WindowType.Name = algo2.WindowType.Name)
    (hwv : algo.WindowType.Version = algo2.WindowType.Version)
    (han : algo.Name = algo2.Name) (hav : algo.Version = algo2.Version) :
    ∃ e e2, b.algorithmAt ii jj = some e ∧ b2.algorithmAt ii2 jj2 = some e2 ∧
      e.Hash = e2.Hash := by
  refine ⟨_, _, map_ok_entry o st b h ii jj proc algo hs,
    map_ok_entry o2 st2 b2 h2 ii2 jj2 proc2 algo2 hs2, ?_⟩
  simp only [algoEntry, newAlgorithm, algorithmHash, hpn, hpc, hwn, hwv, han, hav]

theorem hash_stable_witness :
    ∃ e e2, exampleBundle.algorithmAt 0 0 = some e ∧ variantBundle.algorithmAt 1 1 = some e2 ∧
      e.Hash = e2.Hash :=
  hash_stable RangeOrder.insertion RangeOrder.reversed exampleState variantState exampleBundle
    variantBundle exampleState_ok variantState_ok 0 0 1 1
    exampleState.Processors[0] variantState.Processors[1]
    exampleState.Processors[0].SupportedAlgorithms[0]
    variantState.Processors[1].SupportedAlgorithms[1]
    rfl rfl rfl rfl rfl rfl rfl rfl

/-! ## The rendering of the hash -/

theorem digitChar_hex : ∀ d, d < 16 → Nat.digitChar d ∈ "0123456789abcdef".data := by
  decide

theorem toDigitsCore_chars (f : Nat) :
    ∀ (n : Nat) (ds : List Char), ∀ c ∈ Nat.toDigitsCore 16 f n ds,
      c ∈ ds ∨ c ∈ "0123456789abcdef".data := by
  induction f with
  | zero => intro n ds c hc; exact Or.inl (by simpa [Nat.toDigitsCore] using hc)
  | succ f ih =>
    intro n ds c hc
    have hd := digitChar_hex (n % 16) (Nat.mod_lt _ (by norm_num))
    simp only [Nat.toDigitsCore] at hc
    split at hc
    · rcases List.mem_cons.1 hc with h | h
      · exact Or.inr (h ▸ hd)
      · exact Or.inl h
    · rcases ih _ _ c hc with h | h
      · rcases List.mem_cons.1 h with h | h
        · exact Or.inr (h ▸ hd)
        · exact Or.inl h
      · exact Or.inr h

theorem toDigitsCore_length_ge (f : Nat) :
    ∀ (n : Nat) (ds : List Char), ds.length ≤ (Nat.toDigitsCore 16 f n ds).length := by
  induction f with
  | zero => intro n ds; simp [Nat.toDigitsCore]
  | succ f ih =>
    intro n ds
    simp only [Nat.toDigitsCore]
    split
    · simp
    · exact Nat.le_trans (by simp) (ih _ _)

theorem toDigitsCore_length_lower (k : Nat) :
    ∀ (f n : Nat) (ds : List Char), 16 ^ k ≤ n → n < f →
      k + 1 + ds.length ≤ (Nat.toDigitsCore 16 f n ds).length := by
  induction k with
  | zero =>
    intro f n ds h1 h2
    cases f with
    | zero => omega
    | succ f =>
      simp only [Nat.toDigitsCore]
      split
      · simp; omega
      · have := toDigitsCore_length_ge f (n / 16) (Nat.digitChar (n % 16) :: ds)
        simp only [List.length_cons] at this
        omega
  | succ k ih =>
    intro f n ds h1 h2
    cases f with
    | zero => omega
    | succ f =>
      have hpos : 0 < 16 ^ k := Nat.pow_pos (by norm_num)
      have hq : 16 ^ k ≤ n / 16 := by
        rw [Nat.le_div_iff_mul_le (by norm_num)]
        rw [pow_succ] at h1
        exact h1
      have hne : ¬ n / 16 = 0 := by omega
      have hlt : n / 16 < f := by
        have : n / 16 < n := Nat.div_lt_self (by omega) (by norm_num)
        omega
      simp only [Nat.toDigitsCore, hne, if_false]
      have := ih f (n / 16) (Nat.digitChar (n % 16) :: ds) hq hlt
      simp only [List.length_cons] at this
      omega

theorem fmtHex_length (u : Nat) (hu : u < 2 ^ 32) :
    1 ≤ (fmtHex u).length ∧ (fmtHex u).length ≤ 8 ∧
      ((fmtHex u).length = 8 ↔ 0x10000000 ≤ u) := by
  have hlen : (fmtHex u).length = (Nat.toDigitsCore 16 (u + 1) u []).length := rfl
  have h1 : 1 ≤ (Nat.toDigitsCore 16 (u + 1) u []).length := by
    simp only [Nat.toDigitsCore]
    split
    · simp
    · exact Nat.le_trans (by simp) (toDigitsCore_length_ge _ _ _)
  have h8 : (Nat.toDigitsCore 16 (u + 1) u []).length ≤ 8 :=
    Nat.toDigitsCore_length 16 (by norm_num) (u + 1) u 8 (by norm_num at hu ⊢; omega) (by norm_num)
  rw [hlen]
  refine ⟨h1, h8, ?_⟩
  constructor
  · intro h
    by_contra hlt
    have h7 : (Nat.toDigitsCore 16 (u + 1) u []).length ≤ 7 :=
      Nat.toDigitsCore_length 16 (by norm_num) (u + 1) u 7 (by norm_num at hlt ⊢; omega)
        (by norm_num)
    omega
  · intro h
    have := toDigitsCore_length_lower 7 (u + 1) u [] (by norm_num at h ⊢; omega) (by omega)
    simp only [List.length_nil] at this
    omega

theorem fmtHex_chars (u : Nat) : ∀ c ∈ (fmtHex u).data, c ∈ "0123456789abcdef".data := by
  intro c hc
  rcases toDigitsCore_chars (u + 1) u [] c hc with h | h
  · simp at h
  · exact h

theorem shiftRight_le_self (x k : Nat) : x >>> k ≤ x := by
  rw [Nat.shiftRight_eq_div_pow]
  exact Nat.div_le_self _ _

theorem bytes_lt (s : String) : ∀ x ∈ bytes s, x < 256 := by
  intro x hx
  simp only [bytes, List.mem_flatten, List.mem_map] at hx
  obtain ⟨l, ⟨c, -, rfl⟩, hx⟩ := hx
  obtain ⟨y, -, rfl⟩ := List.mem_map.1 hx
  exact y.toNat_lt

theorem crc32.tableRounds_lt (k : Nat) :
    ∀ crc, crc < 2 ^ 32 → crc32.tableRounds crc32.IEEE k crc < 2 ^ 32 := by
  induction k with
  | zero => intro crc h; exact h
  | succ k ih =>
    intro crc h
    have hs : crc >>> 1 < 2 ^ 32 := Nat.lt_of_le_of_lt (shiftRight_le_self _ _) h
    simp only [crc32.tableRounds]
    split
    · exact ih _ (Nat.xor_lt_two_pow hs (by norm_num [crc32.IEEE]))
    · exact ih _ hs

theorem crc32.simpleLoop_lt (p : List Nat) :
    ∀ crc, crc < 2 ^ 32 → (∀ x ∈ p, x < 256) →
      crc32.simpleLoop crc32.IEEE p crc < 2 ^ 32 := by
  induction p with
  | nil => intro crc h _; exact h
  | cons v p ih =>
    intro crc h hb
    simp only [crc32.simpleLoop]
    apply ih
    · apply Nat.xor_lt_two_pow
      · apply crc32.tableRounds_lt
        have h8 : (crc % 256) ^^^ v < 2 ^ 8 :=
          Nat.xor_lt_two_pow (Nat.mod_lt _ (by norm_num)) (hb v (List.mem_cons_self _ _))
        exact Nat.lt_trans h8 (by norm_num)
      · exact Nat.lt_of_le_of_lt (shiftRight_le_self _ _) h
    · exact fun x hx => hb x (List.mem_cons_of_mem _ hx)

theorem crc32.ChecksumIEEE_lt (s : String) : crc32.ChecksumIEEE (bytes s) < 2 ^ 32 := by
  unfold crc32.ChecksumIEEE crc32.update
  exact Nat.xor_lt_two_pow (crc32.simpleLoop_lt _ _ (by norm_num) (bytes_lt s)) (by norm_num)


theorem algorithmHash_lt (proc : pb.Processor) (algo : pb.Algorithm) :
    algorithmHash proc algo < 2 ^ 32 := by
  rw [algorithmHash_eq]
  exact crc32.ChecksumIEEE_lt _

set_option maxRecDepth 100000 in
/-- C7, as stated, fails: the checksum `0x04f66190` of the second algorithm is
rendered with seven characters, next to the eight of the first one. -/
theorem hash_width_counterexample :
    ∃ b, mapInternalStateToTmpl RangeOrder.insertion shortHashState = .ok b ∧
      b.Processors.map (fun pd => pd.Algorithms.map (fun a => (a.Hash, a.Hash.length))) =
        [[("b69e53c0", 8), ("4f66190", 7)]] :=
  ⟨_, rfl, by decide⟩

/-- C7, amended: in a successful mapping the Hash of an algorithm entry is the
lower-case hexadecimal rendering of its 32-bit hash value without leading
zeros: between 1 and 8 characters, each in 0-9a-f, and 8 characters exactly
when the value is at least `0x10000000`. -/
theorem hash_is_hex_without_leading_zeros (o : RangeOrder) (st : pb.InternalState)
    (b : AllProcessors) (h : mapInternalStateToTmpl o st = .ok b) (ii jj : Nat) (e : Algorithm)
    (he : b.algorithmAt ii jj = some e) :
    ∃ proc algo, st.algorithmAt ii jj = some (proc, algo) ∧
      algorithmHash proc algo < 2 ^ 32 ∧
      e.Hash = fmtHex (algorithmHash proc algo) ∧
      1 ≤ e.Hash.length ∧ e.Hash.length ≤ 8 ∧
      (∀ c ∈ e.Hash.data, c ∈ "0123456789abcdef".data) ∧
      (e.Hash.length = 8 ↔ 0x10000000 ≤ algorithmHash proc algo) := by
  obtain ⟨proc, algo, hat, hent, -⟩ := map_ok_algorithmAt o st b h ii jj e he
  have hlt := algorithmHash_lt proc algo
  have hH : e.Hash = fmtHex (algorithmHash proc algo) := by rw [hent]; rfl
  obtain ⟨h1, h8, hiff⟩ := fmtHex_length _ hlt
  refine ⟨proc, algo, hat, hlt, hH, ?_, ?_, ?_, ?_⟩
  · rw [hH]; exact h1
  · rw [hH]; exact h8
  · rw [hH]; exact fmtHex_chars _
  · rw [hH]; exact hiff

theorem hash_is_hex_without_leading_zeros_witness :
    ∃ proc algo, exampleState.algorithmAt 0 1 = some (proc, algo) ∧
      algorithmHash proc algo < 2 ^ 32 ∧
      "10c9646f" = fmtHex (algorithmHash proc algo) ∧
      1 ≤ "10c9646f".length ∧ "10c9646f".length ≤ 8 ∧
      (∀ c ∈ "10c9646f".data, c ∈ "0123456789abcdef".data) ∧
      ("10c9646f".length = 8 ↔ 0x10000000 ≤ algorithmHash proc algo) :=
  hash_is_hex_without_leading_zeros RangeOrder.insertion exampleState exampleBundle
    exampleState_ok 0 1
    ⟨"Spread", "Spread_10c9646f", "metrics", "1.0.0", "tumble_v1_stub", "StructResult",
      "10c9646f"⟩ rfl

/-! ## The sanitiser -/

theorem Atoi_singleton (r : Char) : (Atoi (String.singleton r)).isSome = r.isDigit := by
  have hs : (String.singleton r).data = [r] := rfl
  unfold Atoi
  rw [hs]
  by_cases hd : r.isDigit = true
  · have hp : r ≠ '+' := by rintro rfl; simp at hd
    have hm : r ≠ '-' := by rintro rfl; simp at hd
    have hb : (match [r] with
      | '+' :: r => (false, r)
      | '-' :: r => (true, r)
      | r => (false, r)) = (false, [r]) := by
      split
      · rename_i heq; simp at heq; exact absurd heq.1 hp
      · rename_i heq; simp at heq; exact absurd heq.1 hm
      · rfl
    rw [hb, hd]
    have hn : r.toNat - 48 ≤ 9 := by
      simp only [Char.isDigit, Bool.and_eq_true, decide_eq_true_eq] at hd
      have := hd.2
      have h2 : r.toNat ≤ 57 := this
      omega
    simp only [List.isEmpty_cons, List.all_cons, hd, List.all_nil, Bool.and_self, Bool.not_true,
      Bool.or_self, Bool.false_eq_true, ↓reduceIte, List.foldl_cons, Nat.zero_mul, Nat.zero_add,
      List.foldl_nil]
    have h1 : ¬ ((r.toNat - 48 : Nat) : Int) < -(2 : Int) ^ 63 := by
      have : (0 : Int) ≤ ((r.toNat - 48 : Nat) : Int) := Int.ofNat_nonneg _
      norm_num
      omega
    have h2 : ¬ (2 : Int) ^ 63 ≤ ((r.toNat - 48 : Nat) : Int) := by
      have : ((r.toNat - 48 : Nat) : Int) ≤ 9 := by exact_mod_cast hn
      norm_num
      omega
    simp only [h1, h2, decide_False, Bool.or_self, Bool.false_eq_true, ↓reduceIte,
      Option.isSome_some]
  · have hd2 : r.isDigit = false := by simpa using hd
    rw [hd2]
    split
    · rename_i heq
      simp only [List.cons.injEq] at heq
      simp [← heq.2]
    · rename_i heq
      simp only [List.cons.injEq] at heq
      simp [← heq.2]
    · simp [hd2]


theorem sanitiseLoop_append (rest : List Char) :
    ∀ (i : Nat) (result : List Char), ∃ t, sanitiseLoop rest i result = result ++ t := by
  induction rest with
  | nil => intro i result; exact ⟨[], by simp [sanitiseLoop]⟩
  | cons r rest ih =>
    intro i result
    simp only [sanitiseLoop]
    split
    · obtain ⟨t, ht⟩ := ih (i + r.utf8Size) (result ++ ['_'] ++ [r])
      exact ⟨'_' :: r :: t, by rw [ht]; simp⟩
    · split
      · obtain ⟨t, ht⟩ := ih (i + r.utf8Size) (result ++ ['_'])
        exact ⟨'_' :: t, by rw [ht]; simp⟩
      · obtain ⟨t, ht⟩ := ih (i + r.utf8Size) (result ++ [r])
        exact ⟨r :: t, by rw [ht]; simp⟩

theorem sanitiseLoop_no_dot (rest : List Char) :
    ∀ (i : Nat) (result : List Char), '.' ∉ result → '.' ∉ sanitiseLoop rest i result := by
  induction rest with
  | nil => intro i result h; simpa [sanitiseLoop] using h
  | cons r rest ih =>
    intro i result h
    simp only [sanitiseLoop]
    split
    · rename_i hc
      have hr : r.isDigit = true := by rw [← Atoi_singleton]; exact hc.2
      have hne : ¬ '.' = r := by rintro rfl; simp at hr
      apply ih
      simp [h, hne]
    · split
      · apply ih
        simp [h]
      · rename_i hne
        apply ih
        simp only [List.mem_append, List.mem_singleton, not_or]
        exact ⟨h, fun e => hne e.symm⟩

/-- C10: the result of `sanitiseVariableName` does not begin with a decimal digit
and holds no `.` character. -/
theorem sanitise_safe (s : String) :
    (∀ c, (sanitiseVariableName s).data.head? = some c → c.isDigit = false) ∧
      '.' ∉ (sanitiseVariableName s).data := by
  refine ⟨?_, sanitiseLoop_no_dot s.data 0 [] (by simp)⟩
  intro c hc
  show c.isDigit = false
  have hdata : (sanitiseVariableName s).data = sanitiseLoop s.data 0 [] := rfl
  rw [hdata] at hc
  cases hs : s.data with
  | nil => rw [hs] at hc; simp [sanitiseLoop] at hc
  | cons r rest =>
    rw [hs] at hc
    simp only [sanitiseLoop, true_and, List.nil_append] at hc
    split at hc
    · obtain ⟨t, ht⟩ := sanitiseLoop_append rest (0 + r.utf8Size) (['_'] ++ [r])
      rw [ht] at hc
      simp only [List.singleton_append, List.cons_append, List.head?_cons,
        Option.some.injEq] at hc
      rw [← hc]
      rfl
    · rename_i hnd
      have hr : r.isDigit = false := by
        rw [← Atoi_singleton]
        simpa using hnd
      split at hc
      · obtain ⟨t, ht⟩ := sanitiseLoop_append rest (0 + r.utf8Size) ['_']
        rw [ht] at hc
        simp only [List.singleton_append, List.head?_cons, Option.some.injEq] at hc
        rw [← hc]
        rfl
      · obtain ⟨t, ht⟩ := sanitiseLoop_append rest (0 + r.utf8Size) [r]
        rw [ht] at hc
        simp only [List.singleton_append, List.head?_cons, Option.some.injEq] at hc
        rw [← hc]
        exact hr

theorem sanitise_safe_witness :
    (∀ c, (sanitiseVariableName "1.5x").data.head? = some c → c.isDigit = false) ∧
      '.' ∉ (sanitiseVariableName "1.5x").data :=
  sanitise_safe "1.5x"


/-! ## Variable names as identifiers -/

theorem noDot_iff (s : String) : noDot s = true ↔ '.' ∉ s.data := by
  simp only [noDot, List.all_eq_true, bne_iff_ne, ne_eq]
  constructor
  · intro h hc
    exact h _ hc rfl
  · intro h c hc e
    exact h (e ▸ hc)

/-- A clean name followed by an underscore and dot-free text is a legal
identifier. -/
theorem legalIdentifier_of_parts (n s : String) (t : List Char)
    (hs : s.data = n.data ++ '_' :: t) (hn : cleanName n = true) (ht : '.' ∉ t) :
    legalIdentifier s = true := by
  simp only [cleanName, Bool.and_eq_true] at hn
  obtain ⟨hstart, hdot⟩ := hn
  have hdot2 := (noDot_iff n).1 hdot
  have hnd : noDot s = true := by
    rw [noDot_iff, hs]
    simp only [List.mem_append, List.mem_cons, not_or]
    exact ⟨hdot2, by decide, ht⟩
  simp only [legalIdentifier, Bool.and_eq_true]
  refine ⟨?_, hnd⟩
  rw [hs]
  cases hd : n.data with
  | nil => simp [legalStart]
  | cons c r =>
    rw [hd] at hstart
    simpa using hstart

theorem fmtHex_no_dot (u : Nat) : '.' ∉ (fmtHex u).data := by
  intro hc
  exact absurd (fmtHex_chars u _ hc) (by decide)

theorem legal_stub (n : String) (hn : cleanName n = true) :
    legalIdentifier (n ++ "_stub") = true :=
  legalIdentifier_of_parts n _ ['s', 't', 'u', 'b'] (by simp [String.data_append]) hn (by decide)

theorem legal_window_stub (n v : String) (hn : cleanName n = true) (hv : noDot v = true) :
    legalIdentifier (n ++ "_" ++ v ++ "_stub") = true := by
  apply legalIdentifier_of_parts n _ (v.data ++ ['_', 's', 't', 'u', 'b'])
    (by simp [String.data_append]) hn
  simp only [List.mem_append, not_or]
  exact ⟨(noDot_iff v).1 hv, by decide⟩

theorem legal_hash_suffix (n : String) (u : Nat) (hn : cleanName n = true) :
    legalIdentifier (n ++ "_" ++ fmtHex u) = true :=
  legalIdentifier_of_parts n _ (fmtHex u).data (by simp [String.data_append]) hn
    (fmtHex_no_dot u)

theorem metadataAfter_entry_field (algos : List pb.Algorithm) (e : String × Metadata)
    (he : e ∈ metadataAfter algos []) :
    ∃ a ∈ algos, ∃ f ∈ a.WindowType.MetadataFields, e = fieldEntry f := by
  rcases GoMap.mem_addAll _ e [] he with h | h
  · simp at h
  · obtain ⟨f, hf, rfl⟩ := List.mem_map.1 h
    simp only [allFields, List.mem_flatten, List.mem_map] at hf
    obtain ⟨l, ⟨a, ha, rfl⟩, hfl⟩ := hf
    exact ⟨a, ha, f, hfl, rfl⟩

theorem cleanSchema_algo (st : pb.InternalState) (hc : cleanSchema st = true)
    (proc : pb.Processor) (hp : proc ∈ st.Processors) (a : pb.Algorithm)
    (ha : a ∈ proc.SupportedAlgorithms) :
    cleanName a.Name = true ∧ cleanName a.WindowType.Name = true ∧
      noDot a.WindowType.Version = true ∧
      ∀ f ∈ a.WindowType.MetadataFields, cleanName f.Name = true := by
  simp only [cleanSchema, List.all_eq_true, Bool.and_eq_true] at hc
  obtain ⟨⟨⟨h1, h2⟩, h3⟩, h4⟩ := hc proc hp a ha
  exact ⟨h1, h2, h3, h4⟩

set_option maxRecDepth 100000 in
/-- C9, as stated, fails: the names of the schema are copied into the variable
names as they are, and none of the five variable names of this bundle is a legal
identifier. -/
theorem varNames_counterexample :
    ∃ b, mapInternalStateToTmpl RangeOrder.insertion dottedState = .ok b ∧
      (allVarNames b).map (fun v => (v, legalIdentifier v)) =
        [("asset.id_stub", false), ("tumble_1.0.0_stub", false), ("asset.id_stub", false),
          ("3sigma_7ba27854", false), ("tumble_1.0.0_stub", false)] :=
  ⟨_, rfl, by decide⟩

/-- C9, amended: in a successful mapping of a schema whose algorithm names,
window names and metadata-field names hold no `.` and do not start with anything
but a letter or an underscore, and whose window versions hold no `.`, every
generated variable name of the bundle is a legal identifier. -/
theorem varNames_legal_of_clean (o : RangeOrder) (st : pb.InternalState) (b : AllProcessors)
    (h : mapInternalStateToTmpl o st = .ok b) (hc : cleanSchema st = true) :
    ∀ v ∈ allVarNames b, legalIdentifier v = true := by
  intro v hv
  simp only [allVarNames, List.mem_flatten, List.mem_map] at hv
  obtain ⟨l, ⟨pd, hpd, rfl⟩, hv⟩ := hv
  obtain ⟨ii, hii⟩ := List.getElem?_of_mem hpd
  obtain ⟨proc, hproc, hstep⟩ := map_ok_at o st b h ii pd hii
  have hclean := cleanSchema_algo st hc proc (List.getElem?_mem hproc)
  obtain ⟨-, halg, hw, hm, -⟩ := procStep_ok o ii proc pd hstep
  simp only [List.mem_append, List.mem_map, List.mem_flatten] at hv
  rcases hv with (⟨m, hmem, rfl⟩ | ⟨l2, ⟨w, hwm, rfl⟩, hv⟩) | ⟨l2, ⟨e, hem, rfl⟩, hv⟩
  · obtain ⟨kv, hkv, rfl⟩ := List.mem_map.1 (hm.mem_iff.1 hmem)
    obtain ⟨a, ha, f, hf, rfl⟩ := metadataAfter_entry_field _ kv hkv
    exact legal_stub _ ((hclean a ha).2.2.2 f hf)
  · obtain ⟨kv, hkv, rfl⟩ := List.mem_map.1 (hw.mem_iff.1 hwm)
    obtain ⟨a, ha, rfl⟩ := windowsAfter_entry _ kv hkv
    obtain ⟨-, hn, hver, hfs⟩ := hclean a ha
    rcases List.mem_cons.1 hv with rfl | hv
    · exact legal_window_stub _ _ hn hver
    · simp only [windowEntry, List.mem_map] at hv
      obtain ⟨f, hf, rfl⟩ := hv
      exact legal_stub _ (hfs f hf)
  · rw [halg] at hem
    obtain ⟨a, ha, rfl⟩ := List.mem_map.1 hem
    obtain ⟨hn, hwn, hver, -⟩ := hclean a ha
    simp only [List.mem_cons, List.mem_singleton, List.not_mem_nil, or_false] at hv
    rcases hv with rfl | rfl
    · exact legal_hash_suffix _ _ hn
    · exact legal_window_stub _ _ hwn hver

theorem varNames_legal_of_clean_witness :
    cleanSchema exampleState = true ∧ (allVarNames exampleBundle).all legalIdentifier = true :=
  ⟨by decide,
    List.all_eq_true.2
      (varNames_legal_of_clean RangeOrder.insertion exampleState exampleBundle exampleState_ok
        (by decide))⟩

/-! ## The identifier helpers against their descriptions -/

theorem sanitiseLoop_pos (rest : List Char) :
    ∀ (i : Nat) (result : List Char), 0 < i →
      sanitiseLoop rest i result =
        result ++ rest.map (fun c => if c = '.' then '_' else c) := by
  induction rest with
  | nil => intro i result _; simp [sanitiseLoop]
  | cons r rest ih =>
    intro i result hi
    have hne : ¬ i = 0 := by omega
    simp only [sanitiseLoop, hne, false_and, if_false]
    split
    · rename_i hr
      rw [ih _ _ (by omega)]
      simp [hr]
    · rename_i hr
      rw [ih _ _ (by omega)]
      simp [hr]

/-- C11: `sanitiseVariableName` returns its argument with every `.` replaced by
an underscore, behind one more underscore exactly when the first character is a
decimal digit; every other character stays in place, and the empty string is
returned as it is. -/
theorem sanitise_eq_spec (s : String) :
    sanitiseVariableName s = sanitiseSpec s ∧ sanitiseVariableName "" = "" := by
  refine ⟨?_, rfl⟩
  apply String.ext
  show sanitiseLoop s.data 0 [] = (sanitiseSpec s).data
  simp only [sanitiseSpec]
  cases hs : s.data with
  | nil => simp [sanitiseLoop]
  | cons r rest =>
    have hpos : 0 < 0 + r.utf8Size := by
      have := Char.utf8Size_pos r
      omega
    simp only [sanitiseLoop, true_and, List.nil_append, Atoi_singleton]
    by_cases hd : r.isDigit = true
    · have hne : ¬ r = '.' := by rintro rfl; simp at hd
      rw [if_pos hd, sanitiseLoop_pos _ _ _ hpos]
      simp [hd, hne]
    · rw [if_neg hd]
      have hd2 : r.isDigit = false := by simpa using hd
      split
      · rename_i hr
        rw [sanitiseLoop_pos _ _ _ hpos]
        simp [hd2, hr]
      · rename_i hr
        rw [sanitiseLoop_pos _ _ _ hpos]
        simp [hd2, hr]

theorem isUpper_iff (r : Char) : r.isUpper = true ↔ 'A' ≤ r ∧ r ≤ 'Z' := by
  simp only [Char.isUpper, Bool.and_eq_true, decide_eq_true_eq, Char.le_def]
  exact Iff.rfl

theorem toLower_of_isUpper (r : Char) (h : r.isUpper = true) :
    r.toLower = Char.ofNat (r.toNat + 32) := by
  have h2 : r.toNat ≥ 65 ∧ r.toNat ≤ 90 := by
    simp only [Char.isUpper, Bool.and_eq_true, decide_eq_true_eq] at h
    exact ⟨h.1, h.2⟩
  simp only [Char.toLower, h2, and_self, if_true]

theorem lower_not_upper : ∀ n, n < 91 → 65 ≤ n → (Char.ofNat (n + 32)).isUpper = false := by
  decide

theorem toLower_not_upper (r : Char) (h : r.isUpper = true) : r.toLower.isUpper = false := by
  rw [toLower_of_isUpper r h]
  have h2 : r.toNat ≥ 65 ∧ r.toNat ≤ 90 := by
    simp only [Char.isUpper, Bool.and_eq_true, decide_eq_true_eq] at h
    exact ⟨h.1, h.2⟩
  exact lower_not_upper _ (by omega) h2.1

theorem toSnakeCaseLoop_pos (rest : List Char) :
    ∀ (i : Nat) (result : List Char), 0 < i →
      toSnakeCaseLoop rest i result =
        result ++ (rest.map (fun r => if r.isUpper then ['_', r.toLower] else [r])).flatten := by
  induction rest with
  | nil => intro i result _; simp [toSnakeCaseLoop]
  | cons r rest ih =>
    intro i result hi
    simp only [toSnakeCaseLoop, hi, true_and, ← isUpper_iff]
    rw [ih _ _ (by omega)]
    by_cases hu : r.isUpper = true
    · simp [hu, toLower_of_isUpper r hu]
    · simp [hu]

/-- C12, as stated, fails: `É` and `À` are upper-case letters, and `toSnakeCase`
returns them as they are, with no underscore in front of `À`; only `B` is
lowered. -/
theorem toSnakeCase_counterexample :
    toSnakeCase "ÉcoleÀB" = "ÉcoleÀ_b" ∧ snakeClaim "ÉcoleÀB" = "école_à_b" ∧
      toSnakeCase "ÉcoleÀB" ≠ snakeClaim "ÉcoleÀB" ∧
      (toSnakeCase "ÉcoleÀB").data.filter upperCaseLetter = ['É', 'À'] := by
  decide

/-- C12, amended: `toSnakeCase` returns its argument with every letter `A`..`Z`
replaced by its lower-case form `a`..`z`, behind an underscore when the letter is
not the first character, and every other character, a capital outside `A`..`Z`
included, as it is; the result holds no letter `A`..`Z`. -/
theorem toSnakeCase_eq_spec (s : String) :
    toSnakeCase s = snakeSpec s ∧ ∀ c ∈ (toSnakeCase s).data, c.isUpper = false := by
  have heq : toSnakeCase s = snakeSpec s := by
    apply String.ext
    show toSnakeCaseLoop s.data 0 [] = (snakeSpec s).data
    simp only [snakeSpec]
    cases hs : s.data with
    | nil => simp [toSnakeCaseLoop]
    | cons r rest =>
      have hpos : 0 < 0 + r.utf8Size := by
        have := Char.utf8Size_pos r
        omega
      simp only [toSnakeCaseLoop, Nat.lt_irrefl, false_and, if_false, ← isUpper_iff,
        List.nil_append]
      rw [toSnakeCaseLoop_pos _ _ _ hpos]
      by_cases hu : r.isUpper = true
      · simp [hu, toLower_of_isUpper r hu]
      · simp [hu]
  refine ⟨heq, ?_⟩
  rw [heq]
  intro c hc
  simp only [snakeSpec] at hc
  cases hs : s.data with
  | nil => rw [hs] at hc; simp at hc
  | cons r rest =>
    rw [hs] at hc
    simp only [List.mem_cons, List.mem_flatten, List.mem_map] at hc
    rcases hc with rfl | ⟨l, ⟨x, -, rfl⟩, hc⟩
    · by_cases hu : r.isUpper = true
      · simp only [hu, if_true]
        exact toLower_not_upper r hu
      · rw [if_neg hu]
        simpa using hu
    · by_cases hu : x.isUpper = true
      · simp only [hu, if_true, List.mem_cons, List.mem_singleton, List.not_mem_nil,
          or_false] at hc
        rcases hc with rfl | rfl
        · rfl
        · exact toLower_not_upper x hu
      · simp only [hu, Bool.false_eq_true, if_false, List.mem_singleton] at hc
        rw [hc]
        simpa using hu

theorem toSnakeCase_eq_spec_witness :
    toSnakeCase "HelloWorld2X" = "hello_world2_x" ∧
      ∀ c ∈ (toSnakeCase "HelloWorld2X").data, c.isUpper = false :=
  ⟨(toSnakeCase_eq_spec "HelloWorld2X").1.trans (by decide), (toSnakeCase_eq_spec "HelloWorld2X").2⟩

theorem sanitise_eq_spec_witness :
    sanitiseVariableName "1.5x" = "_1_5x" ∧ sanitiseVariableName "" = "" :=
  ⟨(sanitise_eq_spec "1.5x").1.trans (by decide), (sanitise_eq_spec "1.5x").2⟩

/-! ## One entry per processor and per algorithm -/

set_option maxRecDepth 100000 in
theorem duplicateState_ok :
    mapInternalStateToTmpl RangeOrder.insertion duplicateState = .ok duplicateBundle := by
  rfl

/-- C13: a successful mapping has one ProcessorData per input processor, in input
order and with its name, and the Algorithms list of each has one entry per input
algorithm of the processor, in input order, with the Name and Version of the
algorithm and the name of the processor; no algorithm is dropped as a
duplicate. -/
theorem one_entry_per_algorithm (o : RangeOrder) (st : pb.InternalState) (b : AllProcessors)
    (h : mapInternalStateToTmpl o st = .ok b) :
    b.Processors.length = st.Processors.length ∧
      ∀ (ii : Nat) (proc : pb.Processor), st.Processors[ii]? = some proc →
        ∃ pd : ProcessorData, b.Processors[ii]? = some pd ∧ pd.Name = proc.Name ∧
          pd.Algorithms.length = proc.SupportedAlgorithms.length ∧
          ∀ (jj : Nat) (algo : pb.Algorithm), proc.SupportedAlgorithms[jj]? = some algo →
            ∃ e : Algorithm, pd.Algorithms[jj]? = some e ∧ e.Name = algo.Name ∧
              e.Version = algo.Version ∧ e.ProcessorName = proc.Name := by
  obtain ⟨hlen, hall⟩ := map_ok o st b h
  refine ⟨hlen, ?_⟩
  intro ii proc hp
  obtain ⟨pd, hpd, hstep⟩ := hall ii proc hp
  obtain ⟨hname, halg, -, -, -⟩ := procStep_ok o ii proc pd hstep
  refine ⟨pd, hpd, hname, by rw [halg, List.length_map], ?_⟩
  intro jj algo ha
  refine ⟨algoEntry proc algo, by rw [halg, List.getElem?_map, ha]; rfl, rfl, rfl, rfl⟩

theorem one_entry_per_algorithm_witness :
    duplicateBundle.Processors.length = duplicateState.Processors.length ∧
      ∀ (ii : Nat) (proc : pb.Processor), duplicateState.Processors[ii]? = some proc →
        ∃ pd : ProcessorData, duplicateBundle.Processors[ii]? = some pd ∧ pd.Name = proc.Name ∧
          pd.Algorithms.length = proc.SupportedAlgorithms.length ∧
          ∀ (jj : Nat) (algo : pb.Algorithm), proc.SupportedAlgorithms[jj]? = some algo →
            ∃ e : Algorithm, pd.Algorithms[jj]? = some e ∧ e.Name = algo.Name ∧
              e.Version = algo.Version ∧ e.ProcessorName = proc.Name :=
  one_entry_per_algorithm RangeOrder.insertion duplicateState duplicateBundle duplicateState_ok

/-! ## Uniqueness of the window entries -/

theorem windowsAfter_key_of_entry (algos : List pb.Algorithm) (e : String × Window)
    (he : e ∈ windowsAfter algos []) : e.1 = e.2.Name ++ "_" ++ e.2.Version := by
  obtain ⟨a, -, rfl⟩ := windowsAfter_entry algos e he
  rfl

/-- C15: in a successful mapping no two Window entries of a processor have the
same (Name, Version) pair. -/
theorem windows_unique_by_name_version (o : RangeOrder) (st : pb.InternalState)
    (b : AllProcessors) (h : mapInternalStateToTmpl o st = .ok b) (ii : Nat)
    (proc : pb.Processor) (hp : st.Processors[ii]? = some proc) :
    ∃ pd, b.Processors[ii]? = some pd ∧
      (pd.Windows.map (fun w => (w.Name, w.Version))).Nodup := by
  obtain ⟨pd, hpd, hstep⟩ := (map_ok o st b h).2 ii proc hp
  obtain ⟨-, -, hw, -, -⟩ := procStep_ok o ii proc pd hstep
  refine ⟨pd, hpd, ?_⟩
  rw [(hw.map _).nodup_iff]
  have hkeys : ((windowsAfter proc.SupportedAlgorithms []).map Prod.fst).Nodup :=
    GoMap.addAll_keys_nodup _ [] (by simp)
  have heq : (windowsAfter proc.SupportedAlgorithms []).map Prod.fst =
      (((windowsAfter proc.SupportedAlgorithms []).map Prod.snd).map
        (fun w => (w.Name, w.Version))).map (fun q => q.1 ++ "_" ++ q.2) := by
    rw [List.map_map, List.map_map]
    apply List.map_congr_left
    intro e he
    exact windowsAfter_key_of_entry _ e he
  rw [heq] at hkeys
  exact List.Nodup.of_map _ hkeys

theorem windows_unique_by_name_version_witness :
    ∃ pd, exampleBundle.Processors[0]? = some pd ∧
      (pd.Windows.map (fun w => (w.Name, w.Version))).Nodup :=
  windows_unique_by_name_version RangeOrder.insertion exampleState exampleBundle
    exampleState_ok 0 exampleState.Processors[0] rfl

/-! ## The reported error -/

theorem algoStep_unspecified (proc : pb.Processor) (algo : pb.Algorithm) (s : LoopState)
    (h : algo.ResultType = pb.ResultType.NOT_SPECIFIED) :
    algoStep proc algo s = .error (unspecifiedError proc algo) := by
  rw [algoStep_eq, (classify_eq_none_iff _).2 h]
  rfl

/-- The algorithm loop stops at the first unspecified tag, with its error. -/
theorem algoLoop_first_error (proc : pb.Processor) (algos : List pb.Algorithm) :
    ∀ (jj : Nat) (algo : pb.Algorithm) (s : LoopState), algos[jj]? = some algo →
      algo.ResultType = pb.ResultType.NOT_SPECIFIED →
      (∀ a2 ∈ algos.take jj, a2.ResultType ≠ pb.ResultType.NOT_SPECIFIED) →
      algoLoop proc algos s = .error (unspecifiedError proc algo) := by
  induction algos with
  | nil => intro jj algo s h; simp at h
  | cons a rest ih =>
    intro jj algo s hj hn hbefore
    cases jj with
    | zero =>
      simp only [List.getElem?_cons_zero, Option.some.injEq] at hj
      subst hj
      rw [algoLoop, algoStep_unspecified proc a s hn]
    | succ jj =>
      simp only [List.getElem?_cons_succ] at hj
      simp only [List.take_succ_cons, List.mem_cons, forall_eq_or_imp] at hbefore
      rw [algoLoop, algoStep_eq]
      cases hc : classify a.ResultType with
      | none => exact absurd ((classify_eq_none_iff _).1 hc) hbefore.1
      | some rt =>
        simp only
        exact ih jj algo _ hj hn hbefore.2

/-- The error of a processor iteration is the error of its algorithm loop,
whatever the iteration order of the maps. -/
theorem procStep_error_iff (o : RangeOrder) (ii : Nat) (proc : pb.Processor) (e : String) :
    procStep o ii proc = .error e ↔
      algoLoop proc proc.SupportedAlgorithms ⟨[], [], []⟩ = .error e := by
  unfold procStep
  cases algoLoop proc proc.SupportedAlgorithms ⟨[], [], []⟩ with
  | error e2 => simp
  | ok s => simp

/-- The processor loop stops at the first processor with an unspecified tag, with
the error of its algorithm loop. -/
theorem procLoop_first_error (o : RangeOrder) (procs : List pb.Processor) :
    ∀ (ii k : Nat) (proc : pb.Processor) (acc : List ProcessorData) (e : String),
      procs[ii]? = some proc →
      (∀ p2 ∈ procs.take ii, ∀ a2 ∈ p2.SupportedAlgorithms,
        a2.ResultType ≠ pb.ResultType.NOT_SPECIFIED) →
      algoLoop proc proc.SupportedAlgorithms ⟨[], [], []⟩ = .error e →
      procLoop o procs k acc = .error e := by
  induction procs with
  | nil => intro ii k proc acc e h; simp at h
  | cons p rest ih =>
    intro ii k proc acc e hi hbefore herr
    cases ii with
    | zero =>
      simp only [List.getElem?_cons_zero, Option.some.injEq] at hi
      subst hi
      rw [procLoop, (procStep_error_iff o k p e).2 herr]
    | succ ii =>
      simp only [List.getElem?_cons_succ] at hi
      simp only [List.take_succ_cons, List.mem_cons, forall_eq_or_imp] at hbefore
      obtain ⟨pd, hpd⟩ := (procStep_isOk o k p).2 hbefore.1
      rw [procLoop, hpd]
      exact ih ii _ proc _ e hi hbefore.2 herr

/-- The error of the first unspecified algorithm, located by its position. -/
theorem first_unspecified_error (o : RangeOrder) (st : pb.InternalState) (ii jj : Nat)
    (proc : pb.Processor) (algo : pb.Algorithm)
    (hs : st.algorithmAt ii jj = some (proc, algo))
    (hn : algo.ResultType = pb.ResultType.NOT_SPECIFIED)
    (hp : ∀ p2 ∈ st.Processors.take ii, ∀ a2 ∈ p2.SupportedAlgorithms,
      a2.ResultType ≠ pb.ResultType.NOT_SPECIFIED)
    (ha : ∀ a2 ∈ proc.SupportedAlgorithms.take jj,
      a2.ResultType ≠ pb.ResultType.NOT_SPECIFIED) :
    mapInternalStateToTmpl o st = .error (unspecifiedError proc algo) := by
  unfold pb.InternalState.algorithmAt at hs
  cases hpi : st.Processors[ii]? with
  | none => rw [hpi] at hs; simp at hs
  | some proc2 =>
    rw [hpi] at hs
    simp only at hs
    cases haj : proc2.SupportedAlgorithms[jj]? with
    | none => rw [haj] at hs; simp at hs
    | some algo2 =>
      rw [haj] at hs
      simp only [Option.some.injEq, Prod.mk.injEq] at hs
      obtain ⟨rfl, rfl⟩ := hs
      have herr := algoLoop_first_error proc2 _ jj algo2 ⟨[], [], []⟩ haj hn ha
      unfold mapInternalStateToTmpl
      rw [procLoop_first_error o _ ii 0 proc2 [] _ hpi hp herr]

theorem exists_first {α : Type} (p : α → Prop) (l : List α) (h : ∃ a ∈ l, p a) :
    ∃ (j : Nat) (a : α), l[j]? = some a ∧ p a ∧ ∀ a2 ∈ l.take j, ¬ p a2 := by
  induction l with
  | nil => obtain ⟨a, ha, -⟩ := h; simp at ha
  | cons x rest ih =>
    by_cases hx : p x
    · exact ⟨0, x, by simp, hx, by simp⟩
    · obtain ⟨a, ha, hpa⟩ := h
      rcases List.mem_cons.1 ha with rfl | ha
      · exact absurd hpa hx
      · obtain ⟨j, a2, hj, hp2, hbefore⟩ := ih ⟨a, ha, hpa⟩
        refine ⟨j + 1, a2, by simpa using hj, hp2, ?_⟩
        intro a3 ha3
        simp only [List.take_succ_cons, List.mem_cons] at ha3
        rcases ha3 with rfl | ha3
        · exact hx
        · exact hbefore a3 ha3

/-- C17: for a schema with an unspecified tag the mapping returns the error of
the first such algorithm in input order, the earliest processor and then the
earliest algorithm in it, with the message built from that algorithm and its
processor; no later unspecified algorithm is reported. -/
theorem first_unspecified_reported (o : RangeOrder) (st : pb.InternalState)
    (h : ∃ proc ∈ st.Processors, ∃ a ∈ proc.SupportedAlgorithms,
      a.ResultType = pb.ResultType.NOT_SPECIFIED) :
    ∃ (ii jj : Nat) (proc : pb.Processor) (algo : pb.Algorithm),
      st.algorithmAt ii jj = some (proc, algo) ∧
      algo.ResultType = pb.ResultType.NOT_SPECIFIED ∧
      (∀ p2 ∈ st.Processors.take ii, ∀ a2 ∈ p2.SupportedAlgorithms,
        a2.ResultType ≠ pb.ResultType.NOT_SPECIFIED) ∧
      (∀ a2 ∈ proc.SupportedAlgorithms.take jj,
        a2.ResultType ≠ pb.ResultType.NOT_SPECIFIED) ∧
      mapInternalStateToTmpl o st =
        .error ("result type not specified for algorithm " ++ algo.Name ++ "_" ++
          algo.Version ++ " on processor " ++ proc.Name ++ "_" ++ proc.Runtime) := by
  obtain ⟨ii, proc, hpi, hproc, hbefore⟩ := exists_first
    (fun p : pb.Processor => ∃ a ∈ p.SupportedAlgorithms,
      a.ResultType = pb.ResultType.NOT_SPECIFIED) st.Processors h
  obtain ⟨jj, algo, haj, hn, habefore⟩ := exists_first
    (fun a : pb.Algorithm => a.ResultType = pb.ResultType.NOT_SPECIFIED)
    proc.SupportedAlgorithms hproc
  have hs : st.algorithmAt ii jj = some (proc, algo) := by
    simp [pb.InternalState.algorithmAt, hpi, haj]
  have hp : ∀ p2 ∈ st.Processors.take ii, ∀ a2 ∈ p2.SupportedAlgorithms,
      a2.ResultType ≠ pb.ResultType.NOT_SPECIFIED :=
    fun p2 hp2 a2 ha2 hn2 => hbefore p2 hp2 ⟨a2, ha2, hn2⟩
  exact ⟨ii, jj, proc, algo, hs, hn, hp, habefore,
    first_unspecified_error o st ii jj proc algo hs hn hp habefore⟩

set_option maxRecDepth 100000 in
theorem threeUnspecifiedState_error :
    mapInternalStateToTmpl RangeOrder.insertion threeUnspecifiedState =
      .error "result type not specified for algorithm Spread_1.0.0 on processor metrics_python" := by
  rfl

theorem first_unspecified_reported_witness :
    ∃ (ii jj : Nat) (proc : pb.Processor) (algo : pb.Algorithm),
      threeUnspecifiedState.algorithmAt ii jj = some (proc, algo) ∧
      algo.ResultType = pb.ResultType.NOT_SPECIFIED ∧
      (∀ p2 ∈ threeUnspecifiedState.Processors.take ii, ∀ a2 ∈ p2.SupportedAlgorithms,
        a2.ResultType ≠ pb.ResultType.NOT_SPECIFIED) ∧
      (∀ a2 ∈ proc.SupportedAlgorithms.take jj,
        a2.ResultType ≠ pb.ResultType.NOT_SPECIFIED) ∧
      mapInternalStateToTmpl RangeOrder.insertion threeUnspecifiedState =
        .error ("result type not specified for algorithm " ++ algo.Name ++ "_" ++
          algo.Version ++ " on processor " ++ proc.Name ++ "_" ++ proc.Runtime) :=
  first_unspecified_reported RangeOrder.insertion threeUnspecifiedState (by decide)

/-! ## The first window under a key wins -/

theorem GoMap.addNew_keys {V : Type} (m : GoMap V) (kv : String × V) (k : String)
    (hk : k ∉ (m.addNew kv).map Prod.fst) : k ∉ m.map Prod.fst ∧ k ≠ kv.1 := by
  unfold GoMap.addNew at hk
  split at hk
  · rename_i hin
    exact ⟨hk, fun e => hk (e ▸ hin)⟩
  · simp only [List.map_append, List.map_cons, List.map_nil, List.mem_append,
      List.mem_singleton, not_or] at hk
    exact hk

/-- An entry of a map filled from `kvs` was in the map before, or it is the
first entry of `kvs` under its key. -/
theorem GoMap.addAll_first {V : Type} (kvs : List (String × V)) :
    ∀ (m : GoMap V) (e : String × V), e ∈ kvs.foldl GoMap.addNew m →
      e ∈ m ∨ (e.1 ∉ m.map Prod.fst ∧
        ∃ j, kvs[j]? = some e ∧ ∀ e2 ∈ kvs.take j, e2.1 ≠ e.1) := by
  induction kvs with
  | nil => intro m e h; exact Or.inl (by simpa using h)
  | cons kv rest ih =>
    intro m e h
    rw [List.foldl_cons] at h
    rcases ih _ e h with h1 | ⟨h1, j, hj, hbefore⟩
    · unfold GoMap.addNew at h1
      split at h1
      · exact Or.inl h1
      · rename_i hnew
        rcases List.mem_append.1 h1 with h2 | h2
        · exact Or.inl h2
        · simp only [List.mem_singleton] at h2
          subst h2
          exact Or.inr ⟨hnew, 0, by simp, by simp⟩
    · obtain ⟨h2, h3⟩ := GoMap.addNew_keys m kv e.1 h1
      refine Or.inr ⟨h2, j + 1, by simpa using hj, ?_⟩
      intro e2 he2
      simp only [List.take_succ_cons, List.mem_cons] at he2
      rcases he2 with rfl | he2
      · exact fun e => h3 e.symm
      · exact hbefore e2 he2

/-- C18: in a successful mapping the Description and the MetadataVarNames of a
Window entry are those of the first algorithm, in input order, whose window has
the key of the entry: MetadataVarNames lists `<field-name>_stub` for the metadata
fields of that window, in field order and with repeats, whatever the later
windows under the same key hold; and every element of MetadataVarNames is the
VarName of a Metadata entry of the same processor. -/
theorem window_of_first_algorithm (o : RangeOrder) (st : pb.InternalState) (b : AllProcessors)
    (h : mapInternalStateToTmpl o st = .ok b) (ii : Nat) (proc : pb.Processor)
    (hp : st.Processors[ii]? = some proc) :
    ∃ pd : ProcessorData, b.Processors[ii]? = some pd ∧
      ∀ w ∈ pd.Windows,
        (∃ (jj : Nat) (algo : pb.Algorithm), proc.SupportedAlgorithms[jj]? = some algo ∧
          algo.WindowType.Name ++ "_" ++ algo.WindowType.Version =
            w.Name ++ "_" ++ w.Version ∧
          (∀ a2 ∈ proc.SupportedAlgorithms.take jj,
            a2.WindowType.Name ++ "_" ++ a2.WindowType.Version ≠
              w.Name ++ "_" ++ w.Version) ∧
          w.Description = algo.WindowType.Description ∧
          w.MetadataVarNames =
            algo.WindowType.MetadataFields.map (fun f => f.Name ++ "_stub")) ∧
        ∀ v ∈ w.MetadataVarNames, ∃ m ∈ pd.Metadata, m.VarName = v := by
  obtain ⟨pd, hpd, hstep⟩ := (map_ok o st b h).2 ii proc hp
  obtain ⟨-, -, hw, hm, -⟩ := procStep_ok o ii proc pd hstep
  refine ⟨pd, hpd, ?_⟩
  intro w hwmem
  obtain ⟨kv, hkv, rfl⟩ := List.mem_map.1 (hw.mem_iff.1 hwmem)
  have hkey := windowsAfter_key_of_entry _ kv hkv
  rcases GoMap.addAll_first _ [] kv hkv with h0 | ⟨-, jj, hjj, hbefore⟩
  · simp at h0
  · rw [List.getElem?_map] at hjj
    cases haj : proc.SupportedAlgorithms[jj]? with
    | none => rw [haj] at hjj; simp at hjj
    | some algo =>
      rw [haj] at hjj
      simp only [Option.map_some', Option.some.injEq] at hjj
      have hmem : algo ∈ proc.SupportedAlgorithms := List.getElem?_mem haj
      constructor
      · refine ⟨jj, algo, haj, ?_, ?_, ?_, ?_⟩
        · rw [← hkey, ← hjj]
          rfl
        · intro a2 ha2
          rw [← hkey]
          rw [← List.map_take] at hbefore
          exact hbefore (windowEntry a2) (List.mem_map.2 ⟨a2, ha2, rfl⟩)
        · rw [← hjj]
          rfl
        · rw [← hjj]
          rfl
      · intro v hv
        rw [← hjj] at hv
        simp only [windowEntry, List.mem_map] at hv
        obtain ⟨f, hf, rfl⟩ := hv
        have hk : f.Name ∈ (metadataAfter proc.SupportedAlgorithms []).map Prod.fst :=
          (metadataAfter_keys _ _).2 ⟨algo, hmem, f, hf, rfl⟩
        obtain ⟨me, hme, hfst⟩ := List.mem_map.1 hk
        refine ⟨me.2, hm.mem_iff.2 (List.mem_map.2 ⟨me, hme, rfl⟩), ?_⟩
        rw [(metadataAfter_entry _ me hme).2, hfst]

theorem window_of_first_algorithm_witness :
    ∃ pd : ProcessorData, exampleBundle.Processors[0]? = some pd ∧
      ∀ w ∈ pd.Windows,
        (∃ (jj : Nat) (algo : pb.Algorithm),
          exampleState.Processors[0].SupportedAlgorithms[jj]? = some algo ∧
          algo.WindowType.Name ++ "_" ++ algo.WindowType.Version =
            w.Name ++ "_" ++ w.Version ∧
          (∀ a2 ∈ exampleState.Processors[0].SupportedAlgorithms.take jj,
            a2.WindowType.Name ++ "_" ++ a2.WindowType.Version ≠
              w.Name ++ "_" ++ w.Version) ∧
          w.Description = algo.WindowType.Description ∧
          w.MetadataVarNames =
            algo.WindowType.MetadataFields.map (fun f => f.Name ++ "_stub")) ∧
        ∀ v ∈ w.MetadataVarNames, ∃ m ∈ pd.Metadata, m.VarName = v :=
  window_of_first_algorithm RangeOrder.insertion exampleState exampleBundle exampleState_ok 0
    exampleState.Processors[0] rfl

/-! ## Runs under different iteration orders -/

theorem procStep_sameUpToOrder (o : RangeOrder) (ii : Nat) (proc : pb.Processor)
    (pd : ProcessorData) (h : procStep o ii proc = .ok pd) :
    pd.sameUpToOrder (canonicalData proc) := by
  obtain ⟨h1, h2, h3, h4, -⟩ := procStep_ok o ii proc pd h
  exact ⟨h1, h2, h3, h4⟩

theorem procLoop_pairs (o : RangeOrder) (procs : List pb.Processor) :
    ∀ (ii : Nat) (acc out : List ProcessorData), procLoop o procs ii acc = .ok out →
      ∃ pds : List ProcessorData, out = acc ++ pds ∧
        List.Forall₂ (fun proc pd => pd.sameUpToOrder (canonicalData proc)) procs pds := by
  induction procs with
  | nil =>
    intro ii acc out h
    simp only [procLoop, Except.ok.injEq] at h
    exact ⟨[], by simp [h], List.Forall₂.nil⟩
  | cons proc rest ih =>
    intro ii acc out h
    rw [procLoop] at h
    cases hp : procStep o ii proc with
    | error e => rw [hp] at h; simp at h
    | ok pd =>
      rw [hp] at h
      simp only at h
      obtain ⟨pds, h1, h2⟩ := ih _ _ _ h
      exact ⟨pd :: pds, by simp [h1], List.Forall₂.cons (procStep_sameUpToOrder o ii proc pd hp) h2⟩

/-- The processors of a successful mapping are, one by one and up to the order
of the Windows and Metadata lists, the data of the input processors. -/
theorem map_ok_pairs (o : RangeOrder) (st : pb.InternalState) (b : AllProcessors)
    (h : mapInternalStateToTmpl o st = .ok b) :
    List.Forall₂ (fun proc pd => pd.sameUpToOrder (canonicalData proc)) st.Processors
      b.Processors := by
  unfold mapInternalStateToTmpl at h
  cases hl : procLoop o st.Processors 0 [] with
  | error e => rw [hl] at h; simp at h
  | ok out =>
    rw [hl] at h
    simp only [Except.ok.injEq] at h
    subst h
    obtain ⟨pds, h1, h2⟩ := procLoop_pairs o _ _ _ _ hl
    simp only [List.nil_append] at h1
    subst h1
    exact h2

theorem map_isOk_iff (o : RangeOrder) (st : pb.InternalState) :
    (∃ b, mapInternalStateToTmpl o st = .ok b) ↔
      ∀ proc ∈ st.Processors, ∀ a ∈ proc.SupportedAlgorithms,
        a.ResultType ≠ pb.ResultType.NOT_SPECIFIED := by
  rw [← procLoop_isOk o st.Processors 0 []]
  unfold mapInternalStateToTmpl
  cases procLoop o st.Processors 0 [] with
  | error e => simp
  | ok out => simp

theorem sameUpToOrder_of_common (c pd pd2 : ProcessorData) (h1 : pd.sameUpToOrder c)
    (h2 : pd2.sameUpToOrder c) : pd.sameUpToOrder pd2 :=
  ⟨h1.1.trans h2.1.symm, h1.2.1.trans h2.2.1.symm, h1.2.2.1.trans h2.2.2.1.symm,
    h1.2.2.2.trans h2.2.2.2.symm⟩

theorem pairs_of_common {α β : Type} {R : α → β → Prop} {S : β → β → Prop}
    (hRS : ∀ a x y, R a x → R a y → S x y) :
    ∀ {l : List α} {l1 l2 : List β}, List.Forall₂ R l l1 → List.Forall₂ R l l2 →
      List.Forall₂ S l1 l2 := by
  intro l l1 l2 h1
  induction h1 generalizing l2 with
  | nil =>
    intro h2
    cases h2
    exact List.Forall₂.nil
  | cons hab _ ih =>
    intro h2
    cases h2 with
    | cons hab2 hrest => exact List.Forall₂.cons (hRS _ _ _ hab hab2) (ih hrest)

theorem procLoop_error_indep (o o2 : RangeOrder) (procs : List pb.Processor) :
    ∀ (ii ii2 : Nat) (acc acc2 : List ProcessorData) (e : String),
      procLoop o procs ii acc = .error e → procLoop o2 procs ii2 acc2 = .error e := by
  induction procs with
  | nil => intro ii ii2 acc acc2 e h; simp [procLoop] at h
  | cons proc rest ih =>
    intro ii ii2 acc acc2 e h
    rw [procLoop] at h
    rw [procLoop]
    cases hp : procStep o ii proc with
    | error e2 =>
      rw [hp] at h
      simp only [Except.error.injEq] at h
      subst h
      rw [(procStep_error_iff o2 ii2 proc e2).2 ((procStep_error_iff o ii proc e2).1 hp)]
    | ok pd =>
      rw [hp] at h
      simp only at h
      obtain ⟨pd2, hpd2⟩ := (procStep_isOk o2 ii2 proc).2 ((procStep_isOk o ii proc).1 ⟨pd, hp⟩)
      rw [hpd2]
      exact ih _ _ _ _ e h

theorem map_error_indep (o o2 : RangeOrder) (st : pb.InternalState) (e : String)
    (h : mapInternalStateToTmpl o st = .error e) : mapInternalStateToTmpl o2 st = .error e := by
  unfold mapInternalStateToTmpl at h ⊢
  cases hl : procLoop o st.Processors 0 [] with
  | ok out => rw [hl] at h; simp at h
  | error e2 =>
    rw [hl] at h
    simp only [Except.error.injEq] at h
    subst h
    rw [procLoop_error_indep o o2 _ 0 0 [] [] e2 hl]

set_option maxRecDepth 100000 in
/-- C14, as stated, fails: the maps of a processor are listed in the order the
runtime visits them, and two runs that visit the metadata map of the same schema
in different orders return different bundles. -/
theorem determinism_counterexample :
    ∃ b b2, mapInternalStateToTmpl RangeOrder.insertion exampleState = .ok b ∧
      mapInternalStateToTmpl RangeOrder.reversed exampleState = .ok b2 ∧
      b.Processors.map (fun pd => pd.Metadata.map (fun m => m.KeyName)) =
        [["asset_id", "fleet"]] ∧
      b2.Processors.map (fun pd => pd.Metadata.map (fun m => m.KeyName)) =
        [["fleet", "asset_id"]] ∧
      b ≠ b2 :=
  ⟨_, _, rfl, rfl, by decide, by decide, by decide⟩

/-- C14, amended: two runs of the mapping on the same schema return the same
error, or two bundles with the same processors in the same order, each with the
same Name and the same Algorithms list, and with Windows and Metadata lists that
hold the same entries, possibly in different orders. -/
theorem runs_agree_up_to_map_order (o o2 : RangeOrder) (st : pb.InternalState) :
    (∀ e, mapInternalStateToTmpl o st = .error e → mapInternalStateToTmpl o2 st = .error e) ∧
      ∀ b, mapInternalStateToTmpl o st = .ok b →
        ∃ b2, mapInternalStateToTmpl o2 st = .ok b2 ∧
          List.Forall₂ ProcessorData.sameUpToOrder b.Processors b2.Processors := by
  refine ⟨fun e h => map_error_indep o o2 st e h, ?_⟩
  intro b h
  obtain ⟨b2, h2⟩ := (map_isOk_iff o2 st).2 ((map_isOk_iff o st).1 ⟨b, h⟩)
  refine ⟨b2, h2, ?_⟩
  exact pairs_of_common (fun proc x y hx hy => sameUpToOrder_of_common (canonicalData proc) x y hx hy)
    (map_ok_pairs o st b h) (map_ok_pairs o2 st b2 h2)

theorem runs_agree_up_to_map_order_witness :
    mapInternalStateToTmpl RangeOrder.reversed unspecifiedState =
        .error "result type not specified for algorithm Spread_1.0.0 on processor metrics_python" ∧
      ∃ b2, mapInternalStateToTmpl RangeOrder.reversed exampleState = .ok b2 ∧
        List.Forall₂ ProcessorData.sameUpToOrder exampleBundle.Processors b2.Processors :=
  ⟨(runs_agree_up_to_map_order RangeOrder.insertion RangeOrder.reversed unspecifiedState).1 _ rfl,
    (runs_agree_up_to_map_order RangeOrder.insertion RangeOrder.reversed exampleState).2
      exampleBundle exampleState_ok⟩

/-! ## Processors are mapped independently -/

set_option maxRecDepth 100000 in
theorem duplicateState_twice_ok :
    mapInternalStateToTmpl RangeOrder.insertion
        ⟨duplicateState.Processors ++ duplicateState.Processors⟩ =
      .ok ⟨duplicateBundle.Processors ++ duplicateBundle.Processors⟩ := by
  rfl

/-- C19: the mapping of a list of processors followed by another succeeds exactly
when the mappings of the two lists succeed, and then its processors are those of
the first result followed by those of the second, each up to the order of its
Windows and Metadata lists: nothing a processor lists depends on the processors
before it. -/
theorem processors_independent (o o1 o2 : RangeOrder) (ps qs : List pb.Processor) :
    ((∃ b, mapInternalStateToTmpl o ⟨ps ++ qs⟩ = .ok b) ↔
      (∃ b1, mapInternalStateToTmpl o1 ⟨ps⟩ = .ok b1) ∧
        ∃ b2, mapInternalStateToTmpl o2 ⟨qs⟩ = .ok b2) ∧
    ∀ b b1 b2, mapInternalStateToTmpl o ⟨ps ++ qs⟩ = .ok b →
      mapInternalStateToTmpl o1 ⟨ps⟩ = .ok b1 → mapInternalStateToTmpl o2 ⟨qs⟩ = .ok b2 →
      List.Forall₂ ProcessorData.sameUpToOrder b.Processors
        (b1.Processors ++ b2.Processors) := by
  constructor
  · rw [map_isOk_iff, map_isOk_iff, map_isOk_iff]
    simp only [List.mem_append]
    constructor
    · intro h
      exact ⟨fun p hp => h p (Or.inl hp), fun p hp => h p (Or.inr hp)⟩
    · rintro ⟨h1, h2⟩ p (hp | hp)
      · exact h1 p hp
      · exact h2 p hp
  · intro b b1 b2 h h1 h2
    have hpq := List.rel_append (map_ok_pairs o1 ⟨ps⟩ b1 h1) (map_ok_pairs o2 ⟨qs⟩ b2 h2)
    exact pairs_of_common
      (fun proc x y hx hy => sameUpToOrder_of_common (canonicalData proc) x y hx hy)
      (map_ok_pairs o ⟨ps ++ qs⟩ b h) hpq

theorem processors_independent_witness :
    List.Forall₂ ProcessorData.sameUpToOrder
      (duplicateBundle.Processors ++ duplicateBundle.Processors)
      (duplicateBundle.Processors ++ duplicateBundle.Processors) :=
  (processors_independent RangeOrder.insertion RangeOrder.insertion RangeOrder.insertion
    duplicateState.Processors duplicateState.Processors).2 _ _ _
    duplicateState_twice_ok duplicateState_ok duplicateState_ok

/-! ## The generator on an unclassified schema -/

/-- C16: for a schema with an unspecified tag `GeneratePythonStub` returns a
non-nil error and performs no action before it returns: the output file is not
created or written and the output directory is not created. -/
theorem generate_fails_without_output (o : RangeOrder) (w : World) (st : pb.InternalState)
    (outDir : String)
    (h : ∃ proc ∈ st.Processors, ∃ a ∈ proc.SupportedAlgorithms,
      a.ResultType = pb.ResultType.NOT_SPECIFIED) :
    ∃ err, mapInternalStateToTmpl o st = .error err ∧
      GeneratePythonStub o w st outDir =
        ([], .returned (some ("could not parse internal state: " ++ err))) := by
  cases hm : mapInternalStateToTmpl o st with
  | ok b =>
    obtain ⟨proc, hp, a, ha, hn⟩ := h
    exact absurd hn ((map_isOk_iff o st).1 ⟨b, hm⟩ proc hp a ha)
  | error err =>
    refine ⟨err, rfl, ?_⟩
    unfold GeneratePythonStub
    rw [hm]

theorem generate_fails_without_output_witness :
    ∃ err, mapInternalStateToTmpl RangeOrder.insertion unspecifiedState = .error err ∧
      GeneratePythonStub RangeOrder.insertion World.obliging unspecifiedState "out" =
        ([], .returned (some ("could not parse internal state: " ++ err))) :=
  generate_fails_without_output RangeOrder.insertion World.obliging unspecifiedState "out"
    (by decide)

set_option maxRecDepth 100000 in
/-- On a classified schema and obliging surroundings the generator does act: it
creates the file, makes the directory, renders, reports and closes. -/
theorem generate_example :
    GeneratePythonStub RangeOrder.insertion World.obliging exampleState "out" =
      ([Action.Create "orca_stub.pyi", Action.Mkdir "out" 488, Action.Execute exampleBundle,
          Action.println "Generated system_state.py successfully!", Action.Close],
        .returned none) := by
  rfl

/-! ## Hashing without separators -/

theorem algorithmHash_of_concat (proc proc2 : pb.Processor) (algo algo2 : pb.Algorithm)
    (h : proc.Name ++ proc.ConnectionStr ++ algo.WindowType.Name ++ algo.WindowType.Version ++
        algo.Name ++ algo.Version =
      proc2.Name ++ proc2.ConnectionStr ++ algo2.WindowType.Name ++ algo2.WindowType.Version ++
        algo2.Name ++ algo2.Version) :
    algorithmHash proc algo = algorithmHash proc2 algo2 := by
  rw [algorithmHash_eq, algorithmHash_eq, h]

set_option maxRecDepth 100000 in
/-- C20: the hash of an algorithm depends on the concatenation of its six strings
only: two algorithms of a successfully mapped schema with the same concatenation
and the same name get the same Hash and the same VarName, and so do the
algorithms of the processors (`ab`, `c`) and (`a`, `bc`), whose tuples differ. -/
theorem hash_depends_on_concatenation (o : RangeOrder) :
    (∀ (st : pb.InternalState) (b : AllProcessors), mapInternalStateToTmpl o st = .ok b →
      ∀ (ii jj ii2 jj2 : Nat) (proc proc2 : pb.Processor) (algo algo2 : pb.Algorithm),
        st.algorithmAt ii jj = some (proc, algo) →
        st.algorithmAt ii2 jj2 = some (proc2, algo2) →
        proc.Name ++ proc.ConnectionStr ++ algo.WindowType.Name ++ algo.WindowType.Version ++
            algo.Name ++ algo.Version =
          proc2.Name ++ proc2.ConnectionStr ++ algo2.WindowType.Name ++
            algo2.WindowType.Version ++ algo2.Name ++ algo2.Version →
        algo.Name = algo2.Name →
        ∃ e e2, b.algorithmAt ii jj = some e ∧ b.algorithmAt ii2 jj2 = some e2 ∧
          e.Hash = e2.Hash ∧ e.VarName = e2.VarName) ∧
    ∃ b e e2, mapInternalStateToTmpl o collisionState = .ok b ∧
      b.algorithmAt 0 0 = some e ∧ b.algorithmAt 1 0 = some e2 ∧
      collisionState.Processors.map (fun p => (p.Name, p.ConnectionStr)) =
        [("ab", "c"), ("a", "bc")] ∧
      e.Hash = e2.Hash ∧ e.VarName = e2.VarName ∧ e.Hash = "fe2ddd25" := by
  have general : ∀ (st : pb.InternalState) (b : AllProcessors),
      mapInternalStateToTmpl o st = .ok b →
      ∀ (ii jj ii2 jj2 : Nat) (proc proc2 : pb.Processor) (algo algo2 : pb.Algorithm),
        st.algorithmAt ii jj = some (proc, algo) →
        st.algorithmAt ii2 jj2 = some (proc2, algo2) →
        proc.Name ++ proc.ConnectionStr ++ algo.WindowType.Name ++ algo.WindowType.Version ++
            algo.Name ++ algo.Version =
          proc2.Name ++ proc2.ConnectionStr ++ algo2.WindowType.Name ++
            algo2.WindowType.Version ++ algo2.Name ++ algo2.Version →
        algo.Name = algo2.Name →
        ∃ e e2, b.algorithmAt ii jj = some e ∧ b.algorithmAt ii2 jj2 = some e2 ∧
          e.Hash = e2.Hash ∧ e.VarName = e2.VarName := by
    intro st b h ii jj ii2 jj2 proc proc2 algo algo2 hs hs2 hcat hname
    have hh := algorithmHash_of_concat proc proc2 algo algo2 hcat
    refine ⟨_, _, map_ok_entry o st b h ii jj proc algo hs,
      map_ok_entry o st b h ii2 jj2 proc2 algo2 hs2, ?_, ?_⟩
    · simp only [algoEntry, newAlgorithm, hh]
    · simp only [algoEntry, newAlgorithm, hh, hname]
  refine ⟨general, ?_⟩
  obtain ⟨b, hb⟩ := (map_isOk_iff o collisionState).2 (by decide)
  obtain ⟨e, e2, he, he2, hH, hV⟩ := general collisionState b hb 0 0 1 0
    collisionState.Processors[0] collisionState.Processors[1]
    collisionState.Processors[0].SupportedAlgorithms[0]
    collisionState.Processors[1].SupportedAlgorithms[0] rfl rfl (by decide) rfl
  refine ⟨b, e, e2, hb, he, he2, by decide, hH, hV, ?_⟩
  have he0 := map_ok_entry o collisionState b hb 0 0 collisionState.Processors[0]
    collisionState.Processors[0].SupportedAlgorithms[0] rfl
  rw [he] at he0
  simp only [Option.some.injEq] at he0
  rw [he0]
  rfl

theorem hash_depends_on_concatenation_witness :
    ∃ b e e2, mapInternalStateToTmpl RangeOrder.insertion collisionState = .ok b ∧
      b.algorithmAt 0 0 = some e ∧ b.algorithmAt 1 0 = some e2 ∧
      collisionState.Processors.map (fun p => (p.Name, p.ConnectionStr)) =
        [("ab", "c"), ("a", "bc")] ∧
      e.Hash = e2.Hash ∧ e.VarName = e2.VarName ∧ e.Hash = "fe2ddd25" :=
  (hash_depends_on_concatenation RangeOrder.insertion).2

end Stub
